import Mathlib

/-!
# Verification development for the `mail` package

Shallow embedding of `writer.go` (the 76-column line wrapper) and of the
control flow of `mail.go` (`Mail.Part`, `Mail.Send`), followed by the
theorems about them.
-/

set_option autoImplicit false
set_option linter.dupNamespace false

namespace GoMail

/-! ## Data model -/

/-- A byte of a Go `[]byte`. -/
abbrev Byte := Fin 256

/-- A non-nil Go `error` value. `Option Err` is a Go `error`, `none` being `nil`. -/
abbrev Err := String

/-- The two bytes of `[]byte("\r\n")`. -/
def crlf : List Byte := [13, 10]

/-- One call of `Write` on the underlying `io.Writer` `self.w`: the slice that
was passed, and the count and error that the stream returned. `isBreak` records
whether the call is the one of line 41 (the line break) or the one of line 31
(payload). -/
structure Call where
  isBreak : Bool
  slice : List Byte
  m : Int
  err : Option Err
  deriving DecidableEq, Repr

/-- The underlying `io.Writer`: given the calls made to it so far and the slice
now passed, the count and the error it returns. Any behaviour of a stream is
such a function. -/
abbrev Under := List Call → List Byte → Int × Option Err

/-- How a run of `writer.Write` ends: a return of `(n, err)`, a run-time panic
of a slice expression, or a loop that is still running when the fuel is used
up; each with the counter `self.i` and the calls made to the underlying stream
as they are at that moment. -/
inductive Outcome where
  | ret (n : Int) (err : Option Err) (i : Int) (log : List Call)
  | panic (i : Int) (log : List Call)
  | outOfFuel (i : Int) (log : List Call)
  deriving DecidableEq, Repr

/-- The calls made to the underlying stream when the run ended. -/
def Outcome.log : Outcome → List Call
  | Outcome.ret _ _ _ log => log
  | Outcome.panic _ log => log
  | Outcome.outOfFuel _ log => log

/-- The counter `self.i` when the run ended. -/
def Outcome.counter : Outcome → Int
  | Outcome.ret _ _ i _ => i
  | Outcome.panic i _ => i
  | Outcome.outOfFuel i _ => i

/-- The loop of `writer.Write` (writer.go lines 23-47), one iteration per unit
of fuel. `i` is `self.i`, `log` the calls made to `self.w` so far, `p`, `n`,
`r` the Go variables of those names. -/
def Write.loop (w : Under) : Nat → Int → List Call → List Byte → Int → Int → Outcome
  | 0, i, log, _, _, _ => Outcome.outOfFuel i log
  | fuel + 1, i, log, p, n, r =>
    if 0 < p.length then
      let k : Int := if (p.length : Int) ≤ r then (p.length : Int) else r
      -- `p[:k]` panics for a negative `k` (`k ≤ len(p)` holds by construction)
      if k < 0 then (Outcome.panic i log)
      else
        let q := p.take k.toNat
        let res := w log q
        let m := res.1
        let err := res.2
        let log1 := log ++ [Call.mk false q m err]
        let n1 := n + m
        let i1 := i + m
        -- `p[m:]` panics unless `0 ≤ m ≤ len(p)`
        if m < 0 ∨ (p.length : Int) < m then (Outcome.panic i1 log1)
        else
          let p1 := p.drop m.toNat
          if err ≠ none then (Outcome.ret n1 err i1 log1)
          else if i1 = 76 then
            let res2 := w log1 crlf
            let err2 := res2.2
            let log2 := log1 ++ [Call.mk true crlf res2.1 err2]
            if err2 ≠ none then (Outcome.ret n1 err2 0 log2)
            else Write.loop w fuel 0 log2 p1 n1 (76 - 0)
          else Write.loop w fuel i1 log1 p1 n1 (76 - i1)
    else (Outcome.ret n none i log)

/-- The method `writer.Write` (writer.go lines 20-49) on a writer whose counter
is `i` and whose underlying stream `w` has received the calls `log`. -/
def Write (w : Under) (fuel : Nat) (i : Int) (log : List Call) (p : List Byte) : Outcome :=
  Write.loop w fuel i log p 0 (76 - i)

/-- Successive calls of `writer.Write` on one writer, one per slice, each with
the given fuel. The result holds the pair `(n, err)` of every call, the final
counter and the calls made to the underlying stream; `none` when a call panics
or runs out of fuel. -/
def WriteAll (w : Under) (fuel : Nat) : Int → List Call → List (List Byte) →
    Option (List (Int × Option Err) × Int × List Call)
  | i, log, [] => some ([], i, log)
  | i, log, p :: ps =>
    match Write w fuel i log p with
    | Outcome.ret n err i1 log1 =>
      match WriteAll w fuel i1 log1 ps with
      | some (rs, i2, log2) => some ((n, err) :: rs, i2, log2)
      | none => none
    | _ => none

/-- An underlying stream whose writes always accept all bytes without error
(as `bytes.Buffer` does). -/
def accepting : Under := fun _ q => ((q.length : Int), none)

/-- The bytes that the underlying stream received: of every call the first `m`
bytes of its slice, in call order. -/
def delivered (log : List Call) : List Byte :=
  (log.map fun c => c.slice.take c.m.toNat).flatten

/-- The number of line-break calls (writer.go line 41) among the calls. -/
def breaks (log : List Call) : Nat :=
  (log.filter fun c => c.isBreak).length

/-! ## The contract in the words of the specification -/

/-- The input with CR LF inserted immediately after every 76th byte of a line,
the current line holding `c` bytes already. -/
def wrapFrom : Nat → List Byte → List Byte
  | _, [] => []
  | c, b :: s => if c + 1 = 76 then b :: 13 :: 10 :: wrapFrom 0 s else b :: wrapFrom (c + 1) s

/-- The input with CR LF inserted immediately after every 76th byte. -/
def insertBreaks (s : List Byte) : List Byte := wrapFrom 0 s

/-- Deletes, by position, the two bytes that follow every 76th kept byte:
`c` bytes of the current line are kept already, `skip` bytes are still to be
deleted. -/
def removeFrom : Nat → Nat → List Byte → List Byte
  | _, _, [] => []
  | c, skip + 1, _ :: s => removeFrom c skip s
  | c, 0, b :: s => if c + 1 = 76 then b :: removeFrom 0 2 s else b :: removeFrom (c + 1) 0 s

/-- Deletes the inserted CR LF pairs: the two bytes after every 76 kept bytes. -/
def removeBreaks (s : List Byte) : List Byte := removeFrom 0 0 s

/-- Replays the counter over the calls and checks every payload chunk: its
length `k` satisfies `0 < k`, `k ≤` the bytes of `p` still to be written and
`k ≤ 76 - i`, and the stream took it whole. `i` is the counter and `rem` the
number of bytes of `p` still to be written before the first call. -/
def chunksOk : Nat → Nat → List Call → Bool
  | _, _, [] => true
  | i, rem, c :: cs =>
    if c.isBreak then decide (i = 76) && decide (c.slice = crlf) && chunksOk 0 rem cs
    else decide (0 < c.slice.length) && decide (c.slice.length ≤ rem) &&
      decide (c.slice.length ≤ 76 - i) && decide (c.m = (c.slice.length : Int)) &&
      chunksOk (i + c.slice.length) (rem - c.slice.length) cs

/-- The number of bytes of `p` that the stream reported as written: the sum of
`m` over the payload calls. -/
def payloadCount : List Call → Int
  | [] => 0
  | c :: cs => if c.isBreak then payloadCount cs else c.m + payloadCount cs

/-- The payload bytes on the current physical line, counted since the last
break that was actually delivered (both of its bytes taken by the stream),
from `i` bytes before the first call. -/
def lineDelivered : Int → List Call → Int
  | i, [] => i
  | i, c :: cs =>
    if c.isBreak then (if c.m = 2 then lineDelivered 0 cs else lineDelivered i cs)
    else lineDelivered (i + c.m) cs

/-- The payload bytes counted since the last break that was attempted, whether
or not the stream took it, from `i` bytes before the first call. -/
def lineAttempted : Int → List Call → Int
  | i, [] => i
  | i, c :: cs => if c.isBreak then lineAttempted 0 cs else lineAttempted (i + c.m) cs

/-- A stream that reports `0 ≤ m ≤ len(slice)` bytes written on every call,
with or without an error. -/
def WellBehaved (w : Under) : Prop :=
  ∀ (log : List Call) (q : List Byte), 0 ≤ (w log q).1 ∧ (w log q).1 ≤ (q.length : Int)

/-- A stream that takes every payload slice in full and fails, taking nothing,
when it is handed the two bytes CR LF. -/
def failingBreak : Under :=
  fun _ q => if q = crlf then (0, some "broken pipe") else ((q.length : Int), none)

/-- A stream that takes every slice in full and reports an error all the same. -/
def fullWithError : Under := fun _ q => ((q.length : Int), some "late error")

/-! ## Base64, standard alphabet, padded

`Mail.Part` hands the body to `base64.NewEncoder(base64.StdEncoding, ...)` of
Go's `encoding/base64`, which is not part of this repository. -/

/-- Modelled from the spec: the "standard alphabet" of the base64 encoder, the
64 characters `A`-`Z`, `a`-`z`, `0`-`9`, `+`, `/` as bytes. -/
def encodeStd : List Byte :=
  [65, 66, 67, 68, 69, 70, 71, 72, 73, 74, 75, 76, 77, 78, 79, 80, 81, 82, 83, 84, 85, 86, 87, 88,
   89, 90, 97, 98, 99, 100, 101, 102, 103, 104, 105, 106, 107, 108, 109, 110, 111, 112, 113, 114,
   115, 116, 117, 118, 119, 120, 121, 122, 48, 49, 50, 51, 52, 53, 54, 55, 56, 57, 43, 47]

/-- Modelled from the spec: the character of the standard alphabet for the low
six bits of `v`. -/
def sextet (v : Nat) : Byte := encodeStd.getD (v % 64) 0

/-- The low eight bits of `v` as a byte. -/
def byteOf (v : Nat) : Byte := ⟨v % 256, Nat.mod_lt _ (by decide)⟩

/-- Modelled from the spec: one group of the padded base64 encoding: three
bytes give four characters, two bytes three characters and one `=`, one byte
two characters and `==` ("emitting final padding for any partial group"). -/
def encodeGroup : List Byte → List Byte
  | [a, b, c] =>
    let v := a.val * 65536 + b.val * 256 + c.val
    [sextet (v / 262144), sextet (v / 4096), sextet (v / 64), sextet v]
  | [a, b] =>
    let v := a.val * 65536 + b.val * 256
    [sextet (v / 262144), sextet (v / 4096), sextet (v / 64), 61]
  | [a] =>
    let v := a.val * 65536
    [sextet (v / 262144), sextet (v / 4096), 61, 61]
  | _ => []

/-- Modelled from the spec: the padded base64 encoding of a byte sequence, in
the standard alphabet (`base64.StdEncoding`). -/
def stdEncode : List Byte → List Byte
  | a :: b :: c :: rest => encodeGroup [a, b, c] ++ stdEncode rest
  | rest => encodeGroup rest

/-- Modelled from the spec: the six bits that a character of the standard
alphabet stands for; `none` for any other byte. -/
def decodeChar (c : Byte) : Option Nat :=
  if encodeStd.indexOf c < 64 then some (encodeStd.indexOf c) else none

/-- Modelled from the spec: decoding of padded base64 text, group by group;
`none` when the text is not well formed. -/
def stdDecodeGroups : List Byte → Option (List Byte)
  | [] => some []
  | a :: b :: c :: d :: rest =>
    if d = 61 then
      if rest ≠ [] then none
      else if c = 61 then
        match decodeChar a, decodeChar b with
        | some x, some y => some [byteOf ((x * 64 + y) / 16)]
        | _, _ => none
      else
        match decodeChar a, decodeChar b, decodeChar c with
        | some x, some y, some z =>
          some [byteOf (((x * 64 + y) * 64 + z) / 1024), byteOf (((x * 64 + y) * 64 + z) / 4)]
        | _, _, _ => none
    else
      match decodeChar a, decodeChar b, decodeChar c, decodeChar d, stdDecodeGroups rest with
      | some x, some y, some z, some u, some tail =>
        some (byteOf ((((x * 64 + y) * 64 + z) * 64 + u) / 65536)
          :: byteOf ((((x * 64 + y) * 64 + z) * 64 + u) / 256)
          :: byteOf ((((x * 64 + y) * 64 + z) * 64 + u)) :: tail)
      | _, _, _, _, _ => none
  | _ => none

/-- Modelled from the spec: base64 decoding "ignoring CRLF": the bytes CR and
LF are dropped, the rest is decoded. -/
def stdDecode (s : List Byte) : Option (List Byte) :=
  stdDecodeGroups (s.filter fun c => c ≠ 13 ∧ c ≠ 10)

/-- The `io.Writer` below the encoder: its state and its `Write`, of which the
encoder uses the error only; `none` when the call panics or does not return. -/
abbrev Sink (σ : Type) := σ → List Byte → Option (Option Err × σ)

/-- Modelled from the spec: the streaming base64 encoder `bw`, which "buffers
at most 3 input bytes to emit a 4-character group": its sticky error `err`, the
bytes `buf` waiting for a full group, and the state of its sink. -/
structure Encoder (σ : Type) where
  err : Option Err
  buf : List Byte
  sink : σ

/-- Modelled from the spec: the interior of the encoder's `Write`: while at
least three bytes are left, the full groups of the next block (768 bytes at
most, the encoder's output buffer holding 1024 characters) are encoded and
written to the sink; fewer than three bytes are kept in `buf`. -/
def Encoder.loop {σ : Type} (snk : Sink σ) :
    Nat → Encoder σ → List Byte → Int → Option (Int × Option Err × Encoder σ)
  | 0, _, _, _ => none
  | fuel + 1, e, p, n =>
    if 3 ≤ p.length then
      let nn := if 1024 / 4 * 3 > p.length then p.length - p.length % 3 else 1024 / 4 * 3
      match snk e.sink (stdEncode (p.take nn)) with
      | none => none
      | some (err, s1) =>
        if err ≠ none then some (n, err, Encoder.mk err e.buf s1)
        else Encoder.loop snk fuel (Encoder.mk none e.buf s1) (p.drop nn) (n + (nn : Int))
    else some (n + (p.length : Int), none, Encoder.mk e.err p e.sink)

/-- Modelled from the spec: `Write` of the streaming encoder: the bytes waiting
in `buf` are completed to a group first, then the full groups of `p` are
written out, and a rest of fewer than three bytes is kept. After an error every
call returns that error. -/
def Encoder.Write {σ : Type} (snk : Sink σ) (e : Encoder σ) (p : List Byte) :
    Option (Int × Option Err × Encoder σ) :=
  if e.err ≠ none then some (0, e.err, e)
  else if 0 < e.buf.length then
    let i := min p.length (3 - e.buf.length)
    let buf1 := e.buf ++ p.take i
    let p1 := p.drop i
    if buf1.length < 3 then some ((i : Int), none, Encoder.mk e.err buf1 e.sink)
    else
      match snk e.sink (stdEncode buf1) with
      | none => none
      | some (err, s1) =>
        if err ≠ none then some ((i : Int), err, Encoder.mk err buf1 s1)
        else Encoder.loop snk (p1.length + 1) (Encoder.mk none [] s1) p1 (i : Int)
  else Encoder.loop snk (p.length + 1) e p 0

/-- Modelled from the spec: `Close` of the streaming encoder, "emitting final
padding for any partial group": the bytes waiting in `buf` are written as one
padded group; the sticky error is returned. -/
def Encoder.Close {σ : Type} (snk : Sink σ) (e : Encoder σ) : Option (Option Err × Encoder σ) :=
  if e.err = none ∧ 0 < e.buf.length then
    match snk e.sink (stdEncode e.buf) with
    | none => none
    | some (err, s1) => some (err, Encoder.mk err [] s1)
  else some (e.err, e)

/-- The line wrapper `newWriter(w)` as the sink of the encoder: its state is
the counter `self.i` and the calls made to `w`; one call is `writer.Write`,
run for `len(q) + 1` iterations at most, which is enough whenever every call
on `w` takes at least one byte. -/
def wrapperSink (w : Under) : Sink (Int × List Call) := fun s q =>
  match Write w (q.length + 1) s.1 s.2 q with
  | Outcome.ret _ err i log => some (err, (i, log))
  | _ => none

/-- The body function `f func(io.Writer) error` handed to `Mail.Part`: the
slices it writes, in order, and the error it returns of its own when every
write succeeded (the read error of `io.Copy` in `AttachReader`). It stops at
the first write that fails and returns that error. -/
structure Body where
  pieces : List (List Byte)
  fail : Option Err

/-- Runs the body function on the encoder `bw`. -/
def Body.run {σ : Type} (snk : Sink σ) :
    List (List Byte) → Option Err → Encoder σ → Option (Option Err × Encoder σ)
  | [], fail, e => some (fail, e)
  | p :: ps, fail, e =>
    match Encoder.Write snk e p with
    | none => none
    | some (_, some err, e1) => some (some err, e1)
    | some (_, none, e1) => Body.run snk ps fail e1

/-! ## `Mail` and `Mail.Part` (mail.go) -/

/-- A `textproto.MIMEHeader` with one value per key. -/
abbrev Header := List (String × String)

/-- The method `header.Set(key, value)`. -/
def Header.set (h : Header) (key value : String) : Header :=
  (key, value) :: h.filter fun kv => kv.1 ≠ key

/-- The UTF-8 encoding of a character: one to four bytes. -/
def utf8 (c : Char) : List Byte :=
  if c.toNat < 128 then [byteOf c.toNat]
  else if c.toNat < 2048 then [byteOf (192 + c.toNat / 64), byteOf (128 + c.toNat % 64)]
  else if c.toNat < 65536 then
    [byteOf (224 + c.toNat / 4096), byteOf (128 + c.toNat / 64 % 64), byteOf (128 + c.toNat % 64)]
  else
    [byteOf (240 + c.toNat / 262144), byteOf (128 + c.toNat / 4096 % 64),
     byteOf (128 + c.toNat / 64 % 64), byteOf (128 + c.toNat % 64)]

/-- The bytes of a Go string: the UTF-8 encoding of its characters. -/
def bytes (s : String) : List Byte := (s.toList.map utf8).flatten

/-- The struct `Mail`: the contents of `buffer`, and of `mwriter` its boundary
and whether a part was created before (`lastpart != nil`). -/
structure Mail where
  buffer : List Byte
  boundary : String
  lastpart : Bool
  deriving DecidableEq, Repr

/-- The multipart writer `self.mwriter` as `Mail` uses it: `Close` and
`CreatePart(header)`, each with the error it returns and the `Mail` it leaves. -/
structure Multipart where
  close : Mail → Option Err × Mail
  createPart : Header → Mail → Option Err × Mail

/-- The header lines that `CreatePart` writes: `key: value` CR LF for every
key, the keys in sorted order. -/
def headerLines (h : Header) : List Byte :=
  ((h.insertionSort fun a b => a.1.data ≤ b.1.data).map fun kv =>
    bytes kv.1 ++ bytes ": " ++ bytes kv.2 ++ crlf).flatten

/-- The writer of Go's `mime/multipart` over a `bytes.Buffer`, which this
repository uses and does not contain. `Close` forgets the last part and writes
the closing delimiter; `CreatePart` writes the delimiter, the header lines and
an empty line. Neither keeps a record of `Close` having been called, and a
`bytes.Buffer` takes every write. -/
def goMultipart : Multipart where
  close := fun m =>
    (none, Mail.mk (m.buffer ++ (crlf ++ bytes "--" ++ bytes m.boundary ++ bytes "--" ++ crlf))
      m.boundary false)
  createPart := fun h m =>
    (none, Mail.mk (m.buffer ++ ((if m.lastpart then crlf else []) ++ bytes "--"
      ++ bytes m.boundary ++ crlf ++ headerLines h ++ crlf)) m.boundary true)

/-- The first statement of `Mail.Send` (mail.go lines 60-62), which seals the
message: `self.mwriter.Close()`. -/
def Mail.seal (mp : Multipart) (m : Mail) : Option Err × Mail := mp.close m

/-- The three calls that `Mail.Part` makes, as steps on a state: creation of
the part (lines 123-124), the body function on a new encoder (lines 129-130)
and `bw.Close()`. A step gives the error it returns and the new state, or
`none` when it panics or does not return. -/
structure PartOps (σ : Type) where
  createPart : σ → Option (Option Err × σ)
  body : σ → Option (Option Err × σ)
  close : σ → Option (Option Err × σ)

/-- The control flow of `Mail.Part` (mail.go lines 120-137). -/
def Part {σ : Type} (ops : PartOps σ) (s : σ) : Option (Option Err × σ) :=
  match ops.createPart s with
  | none => none
  | some (some e, s1) => some (some e, s1)
  | some (none, s1) =>
    match ops.body s1 with
    | none => none
    | some (none, s2) => ops.close s2
    | some (some e, s2) =>
      match ops.close s2 with
      | none => none
      | some (_, s3) => some (some e, s3)

/-- A call made by `Mail.Part`. -/
inductive PartCall where
  | createPart
  | body
  | close
  deriving DecidableEq, Repr

/-- The same steps, each recording its call. -/
def PartOps.logged {σ : Type} (ops : PartOps σ) : PartOps (σ × List PartCall) where
  createPart := fun s =>
    (ops.createPart s.1).map fun r => (r.1, (r.2, s.2 ++ [PartCall.createPart]))
  body := fun s => (ops.body s.1).map fun r => (r.1, (r.2, s.2 ++ [PartCall.body]))
  close := fun s => (ops.close s.1).map fun r => (r.1, (r.2, s.2 ++ [PartCall.close]))

/-- The state of `Mail.Part` at work: the `Mail` as `CreatePart` left it, and
the encoder `bw` on its line wrapper, whose sink state holds the counter and
the calls made to the part writer `w`. -/
structure PartState where
  mail : Mail
  enc : Encoder (Int × List Call)

/-- The steps of `Mail.Part` over the multipart writer `mp`, the part writer
`w`, the header and the body function. -/
def partOps (mp : Multipart) (w : Under) (header : Header) (f : Body) : PartOps PartState where
  createPart := fun s =>
    let r := mp.createPart (header.set "Content-Transfer-Encoding" "base64") s.mail
    some (r.1, PartState.mk r.2 (Encoder.mk none [] (0, [])))
  body := fun s =>
    (Body.run (wrapperSink w) f.pieces f.fail s.enc).map fun r => (r.1, PartState.mk s.mail r.2)
  close := fun s =>
    (Encoder.Close (wrapperSink w) s.enc).map fun r => (r.1, PartState.mk s.mail r.2)

/-- The body of the part in work: the bytes that the part writer received. -/
def PartState.body (s : PartState) : List Byte := delivered s.enc.sink.2

/-- The method `Mail.Part` over Go's multipart writer, whose part writer hands
every write to the buffer: the error returned and the `Mail` afterwards. -/
def Mail.Part (header : Header) (f : Body) (m : Mail) : Option (Option Err × Mail) :=
  (GoMail.Part (partOps goMultipart accepting header f)
    (PartState.mk m (Encoder.mk none [] (0, [])))).map
    fun r => (r.1, Mail.mk (r.2.mail.buffer ++ r.2.body) r.2.mail.boundary r.2.mail.lastpart)

/-- The method `Mail.TextPart`. -/
def Mail.TextPart (typ : String) (f : Body) (m : Mail) : Option (Option Err × Mail) :=
  Mail.Part (Header.set [] "Content-Type" (typ ++ "; charset=utf-8")) f m

/-- The method `Mail.Text`: `io.WriteString(w, s)` is one write of the bytes of `s`. -/
def Mail.Text (s : List Byte) (m : Mail) : Option (Option Err × Mail) :=
  Mail.TextPart "text/plain" (Body.mk [s] none) m

/-- The method `Mail.HTML`. -/
def Mail.HTML (s : List Byte) (m : Mail) : Option (Option Err × Mail) :=
  Mail.TextPart "text/html" (Body.mk [s] none) m

/-- The method `Mail.BinPart`; `encoded` is `mime.BEncoding.Encode("utf-8", name)`. -/
def Mail.BinPart (encoded : String) (f : Body) (m : Mail) : Option (Option Err × Mail) :=
  Mail.Part (Header.set (Header.set [] "Content-Type" "application/octet-stream")
    "Content-Disposition" ("attachment; filename=" ++ encoded)) f m

/-- The method `Mail.AttachReader`: `io.Copy(w, r)` writes the chunks read from
`r` and returns the read error, if any. -/
def Mail.AttachReader (encoded : String) (r : Body) (m : Mail) : Option (Option Err × Mail) :=
  Mail.BinPart encoded r m

/-! ## `Mail.Send` (mail.go lines 59-117) -/

/-- A non-nil value of the interface `smtp.Auth`, by name. -/
abbrev Auth := String

/-- The struct `Config`. The field `Auth` is an interface value: `none` is the
nil interface, which a `Config` without a credential holds. -/
structure Config where
  Addr : String
  Subject : String
  From : String
  To : List String
  Bcc : List String
  Cc : List String
  Auth : Option Auth

/-- A call on the SMTP client, in the order of `Mail.Send`: `smtp.Dial`,
`c.StartTLS`, `c.Auth(self.config.Auth)`, `c.Mail`, `c.Rcpt`, `c.Data`,
`buffer.WriteTo(w)`, `w.Close()`, `c.Quit()` and the deferred `c.Close()`. -/
inductive Event where
  | dial (addr : String)
  | startTLS
  | auth (a : Option Auth)
  | mail (sender : String)
  | rcpt (addr : String)
  | data
  | writeTo (message : List Byte)
  | closeData
  | quit
  | close
  deriving DecidableEq, Repr

/-- How a statement, and `Mail.Send` as a whole, ends: it goes on (`Send`
returns `nil`), it returns the error `e`, or it panics, in which case `Send`
does not return. -/
inductive Status where
  | ok
  | failed (e : Err)
  | panicked
  deriving DecidableEq, Repr

/-- The server and the network: the error with which a call ends, given the
calls made before it, the extensions that the server advertises, and how
`c.Auth` ends with a given credential, whose `Start` and `Next` are code of
the caller: it returns `nil` or an error, or that code panics. -/
structure Server where
  reply : List Event → Event → Option Err
  extension : List Event → String → Bool
  auth : List Event → Auth → Status

/-- The status for a Go `error`. -/
def Status.ofError : Option Err → Status
  | none => Status.ok
  | some e => Status.failed e

/-- One call on the client: how it ends, and the calls made so far. -/
def step (srv : Server) (ev : Event) (tr : List Event) : Status × List Event :=
  (Status.ofError (srv.reply tr ev), tr ++ [ev])

/-- Sequencing of `if err != nil { return err }`; a panic ends the run too. -/
def andThen (r : Status × List Event)
    (k : List Event → Status × List Event) : Status × List Event :=
  match r with
  | (Status.ok, tr) => k tr
  | (st, tr) => (st, tr)

/-- A loop `for _, addr := range ... { if err := c.Rcpt(addr); err != nil { return err } }`. -/
def Send.rcpts (srv : Server) : List String → List Event → Status × List Event
  | [], tr => (Status.ok, tr)
  | addr :: rest, tr => andThen (step srv (Event.rcpt addr) tr) (Send.rcpts srv rest)

/-- The statements of `Mail.Send` from line 83 on: the envelope, the message
and `QUIT`. -/
def Send.envelope (srv : Server) (cfg : Config) (message : List Byte) (tr : List Event) :
    Status × List Event :=
  andThen (step srv (Event.mail cfg.From) tr) fun tr =>
  andThen (Send.rcpts srv cfg.To tr) fun tr =>
  andThen (Send.rcpts srv cfg.Cc tr) fun tr =>
  andThen (Send.rcpts srv cfg.Bcc tr) fun tr =>
  andThen (step srv Event.data tr) fun tr =>
  andThen (step srv (Event.writeTo message) tr) fun tr =>
  andThen (step srv Event.closeData tr) fun tr =>
  step srv Event.quit tr

/-- The call `c.Auth(self.config.Auth)` of line 78. With the nil interface the
client panics on `a.Start(...)` before it sends anything; with a credential
the call ends as the credential and the server make it end. -/
def Send.auth (srv : Server) (cfg : Config) (tr : List Event) : Status × List Event :=
  match cfg.Auth with
  | none => (Status.panicked, tr ++ [Event.auth none])
  | some a => (srv.auth tr a, tr ++ [Event.auth (some a)])

/-- The statements of `Mail.Send` of lines 70-81: `STARTTLS` and `AUTH`, each
when the server advertises it. -/
def Send.handshake (srv : Server) (cfg : Config) (tr : List Event) : Status × List Event :=
  andThen (if srv.extension tr "STARTTLS" then step srv Event.startTLS tr else (Status.ok, tr))
    fun tr => if srv.extension tr "AUTH" then Send.auth srv cfg tr else (Status.ok, tr)

/-- The method `Mail.Send`: how it ends and the calls it made on the SMTP
client. The deferred `c.Close()` runs on every exit after a successful
`smtp.Dial`, a panic included. -/
def Mail.Send (mp : Multipart) (srv : Server) (cfg : Config) (m : Mail) :
    Status × List Event :=
  match Mail.seal mp m with
  | (some e, _) => (Status.failed e, [])
  | (none, m1) =>
    match step srv (Event.dial cfg.Addr) [] with
    | (Status.ok, tr) =>
      let r := andThen (Send.handshake srv cfg tr) (Send.envelope srv cfg m1.buffer)
      (r.1, r.2 ++ [Event.close])
    | (st, tr) => (st, tr)

/-- The commands after authentication, in the order in which the specification
lists them: `MAIL`, `RCPT` for `To`, `Cc`, `Bcc`, `DATA`, the message, the end
of the data, `QUIT`. -/
def commands (cfg : Config) (message : List Byte) : List Event :=
  [Event.mail cfg.From] ++ cfg.To.map Event.rcpt ++ cfg.Cc.map Event.rcpt
    ++ cfg.Bcc.map Event.rcpt
    ++ [Event.data, Event.writeTo message, Event.closeData, Event.quit]

/-- Issues the commands in order and stops at the first one that fails. -/
def runCommands (srv : Server) : List Event → List Event → Status × List Event
  | [], tr => (Status.ok, tr)
  | c :: cs, tr =>
    match srv.reply tr c with
    | some e => (Status.failed e, tr ++ [c])
    | none => runCommands srv cs (tr ++ [c])

/-- A server without `STARTTLS` and `AUTH` that rejects the recipient
`b@x.com` and accepts everything else. -/
def rejectingB : Server where
  reply := fun _ ev => if ev = Event.rcpt "b@x.com" then some "550 no such user" else none
  extension := fun _ _ => false
  auth := fun _ _ => Status.ok

/-- A server that advertises `AUTH`, not `STARTTLS`, and accepts everything. -/
def advertisingAuth : Server where
  reply := fun _ _ => none
  extension := fun _ name => decide (name = "AUTH")
  auth := fun _ _ => Status.ok

/-- A configuration with three `To` addresses, of which `b@x.com` is the
second, one `Cc` address and no credential. -/
def threeTo : Config where
  Addr := "mx.x.com:25"
  Subject := "Test"
  From := "a@x.com"
  To := ["c@x.com", "b@x.com", "d@x.com"]
  Bcc := []
  Cc := ["e@x.com"]
  Auth := none

/-- The same configuration with a credential. -/
def threeToPlain : Config where
  Addr := "mx.x.com:25"
  Subject := "Test"
  From := "a@x.com"
  To := ["c@x.com", "b@x.com", "d@x.com"]
  Bcc := []
  Cc := ["e@x.com"]
  Auth := some "PLAIN"

/-- A `Mail` with a short header block in its buffer and no part yet. -/
def draft : Mail := Mail.mk (bytes "MIME-Version: 1.0\r\n\r\n") "XYZ" false

/-- The state of the line wrapper as a sink over an accepting stream, after
the text `enc` went through it: the counter is `len(enc) mod 76` and the stream
received `enc` with the breaks inserted. -/
def SinkInv (s : Int × List Call) (enc : List Byte) : Prop :=
  s.1 = ((enc.length % 76 : Nat) : Int) ∧ delivered s.2 = insertBreaks enc

/-- The state of the encoder after the bytes `input` were written to it: no
error, fewer than three bytes waiting, and the full groups before them encoded
and handed to the sink. -/
def EncInv (e : Encoder (Int × List Call)) (input : List Byte) : Prop :=
  e.err = none ∧ e.buf.length < 3 ∧
    ∃ done, input = done ++ e.buf ∧ done.length % 3 = 0 ∧ SinkInv e.sink (stdEncode done)

/-! ## Lemmas on the specification functions -/

theorem wrapFrom_append_lt (a : List Byte) : ∀ (c : Nat) (s : List Byte),
    c + a.length < 76 → wrapFrom c (a ++ s) = a ++ wrapFrom (c + a.length) s := by
  induction a with
  | nil => intro c s _; simp
  | cons b a ih =>
    intro c s h
    simp only [List.length_cons] at h
    have h1 : ¬ (c + 1 = 76) := by omega
    rw [List.cons_append, wrapFrom, if_neg h1, ih (c + 1) s (by omega)]
    have h2 : c + 1 + a.length = c + (a.length + 1) := by omega
    simp only [List.length_cons, List.cons_append, h2]

theorem wrapFrom_append_eq (a : List Byte) : ∀ (c : Nat) (s : List Byte),
    0 < a.length → c + a.length = 76 →
    wrapFrom c (a ++ s) = a ++ crlf ++ wrapFrom 0 s := by
  induction a with
  | nil => intro c s h; simp at h
  | cons b a ih =>
    intro c s _ h
    simp only [List.length_cons] at h
    cases a with
    | nil =>
      simp only [List.length_nil] at h
      have h1 : c + 1 = 76 := by omega
      simp [wrapFrom, h1, crlf]
    | cons b2 a2 =>
      have h1 : ¬ (c + 1 = 76) := by simp only [List.length_cons] at h; omega
      have := ih (c + 1) s (by simp) (by omega)
      simp only [List.cons_append] at this ⊢
      rw [wrapFrom]
      simp only [h1, if_false]
      rw [this]

theorem delivered_append (l1 l2 : List Call) :
    delivered (l1 ++ l2) = delivered l1 ++ delivered l2 := by
  simp [delivered]

theorem breaks_append (l1 l2 : List Call) : breaks (l1 ++ l2) = breaks l1 + breaks l2 := by
  simp [breaks]

/-- The loop over an accepting stream: with more fuel than bytes it returns
`n + len(p)` and `nil`, and the calls it makes deliver `wrapFrom c p`. -/
theorem loop_accepting (fuel : Nat) : ∀ (c : Nat) (log : List Call) (p : List Byte) (n : Int),
    c < 76 → p.length < fuel →
    ∃ calls, Write.loop accepting fuel (c : Int) log p n (76 - (c : Int))
        = Outcome.ret (n + (p.length : Int)) none (((c + p.length) % 76 : Nat) : Int)
            (log ++ calls)
      ∧ delivered calls = wrapFrom c p
      ∧ breaks calls = (c + p.length) / 76
      ∧ chunksOk c p.length calls = true := by
  induction fuel with
  | zero => intro c log p n _ h; omega
  | succ fuel ih =>
    intro c log p n hc hp
    by_cases hlen : 0 < p.length
    · obtain ⟨k, hk⟩ : ∃ k : Nat, k = min p.length (76 - c) := ⟨_, rfl⟩
      have hk0 : 0 < k := by omega
      have hkp : k ≤ p.length := by omega
      have hkc : c + k ≤ 76 := by omega
      have hkInt : (if (p.length : Int) ≤ 76 - (c : Int) then (p.length : Int)
          else 76 - (c : Int)) = (k : Int) := by
        split <;> omega
      have htake : (p.take k).length = k := by
        rw [List.length_take]; omega
      have hsplit : p = p.take k ++ p.drop k := (List.take_append_drop k p).symm
      have hdrop : (p.drop k).length = p.length - k := by simp
      have hnot1 : ¬ ((k : Int) < 0) := by omega
      have hnot2 : ¬ ((k : Int) < 0 ∨ (p.length : Int) < (k : Int)) := by omega
      rw [Write.loop]
      simp only [hlen, if_true, hkInt, accepting, Int.toNat_ofNat, htake, hnot1, hnot2,
        if_false, ne_eq, not_true_eq_false]
      have hnot3 : ¬ (False ∨ (p.length : Int) < (k : Int)) := by
        intro h
        rcases h with h | h
        · exact h
        · omega
      rw [if_neg hnot3]
      by_cases hfull : c + k = 76
      · have hfullInt : (c : Int) + (k : Int) = 76 := by omega
        rw [if_pos hfullInt]
        obtain ⟨calls, h1, h2, h3, h4⟩ := ih 0
          (log ++ [Call.mk false (p.take k) (k : Int) none] ++
            [Call.mk true crlf (crlf.length : Int) none])
          (p.drop k) (n + (k : Int)) (by omega) (by omega)
        refine ⟨[Call.mk false (p.take k) (k : Int) none,
          Call.mk true crlf (crlf.length : Int) none] ++ calls, ?_, ?_, ?_, ?_⟩
        · simp only [Nat.cast_zero] at h1
          rw [h1, hdrop]
          have e1 : n + (k : Int) + ((p.length - k : Nat) : Int) = n + (p.length : Int) := by omega
          have e2 : (0 + (p.length - k)) % 76 = (c + p.length) % 76 := by omega
          rw [e1, e2]
          simp
        · rw [delivered_append, h2]
          conv_rhs => rw [hsplit]
          rw [wrapFrom_append_eq _ _ _ (by omega) (by omega)]
          simp [delivered, crlf, htake]
        · rw [breaks_append, h3, hdrop]
          simp [breaks]
          omega
        · simp only [List.cons_append, List.nil_append, chunksOk, htake, hdrop] at h4 ⊢
          simp [hk0, hkp, hfull, h4]
          omega
      · have hfullInt : ¬ ((c : Int) + (k : Int) = 76) := by omega
        rw [if_neg hfullInt]
        have hkl : k = p.length := by omega
        obtain ⟨calls, h1, h2, h3, h4⟩ := ih (c + k)
          (log ++ [Call.mk false (p.take k) (k : Int) none])
          (p.drop k) (n + (k : Int)) (by omega) (by omega)
        refine ⟨[Call.mk false (p.take k) (k : Int) none] ++ calls, ?_, ?_, ?_, ?_⟩
        · simp only [Nat.cast_add] at h1
          rw [h1, hdrop]
          have e1 : n + (k : Int) + ((p.length - k : Nat) : Int) = n + (p.length : Int) := by omega
          have e2 : (c + k + (p.length - k)) % 76 = (c + p.length) % 76 := by omega
          rw [e1, e2]
          simp
        · rw [delivered_append, h2]
          conv_rhs => rw [hsplit]
          rw [wrapFrom_append_lt _ _ _ (by omega)]
          simp [delivered, htake]
        · rw [breaks_append, h3, hdrop]
          simp [breaks]
          omega
        · simp only [List.cons_append, List.nil_append, chunksOk, htake, hdrop] at h4 ⊢
          simp [hk0, hkp, h4]
          omega
    · have hnil : p = [] := by
        cases p with
        | nil => rfl
        | cons b s => simp at hlen
      subst hnil
      refine ⟨[], ?_, ?_, ?_, ?_⟩
      · simp [Write.loop, Nat.mod_eq_of_lt hc]
      · simp [delivered, wrapFrom]
      · simp [breaks]; omega
      · simp [chunksOk]



theorem wrapFrom_append (a : List Byte) : ∀ (c : Nat) (s : List Byte), c < 76 →
    wrapFrom c (a ++ s) = wrapFrom c a ++ wrapFrom ((c + a.length) % 76) s := by
  induction a with
  | nil => intro c s h; simp [wrapFrom, Nat.mod_eq_of_lt h]
  | cons b a ih =>
    intro c s h
    rw [List.cons_append, wrapFrom, wrapFrom]
    by_cases h1 : c + 1 = 76
    · rw [if_pos h1, if_pos h1, ih 0 s (by omega)]
      have e : (0 + a.length) % 76 = (c + (b :: a).length) % 76 := by
        simp only [List.length_cons]; omega
      rw [e]; simp
    · rw [if_neg h1, if_neg h1, ih (c + 1) s (by omega)]
      have e : (c + 1 + a.length) % 76 = (c + (b :: a).length) % 76 := by
        simp only [List.length_cons]; omega
      rw [e]; simp

theorem removeFrom_wrapFrom (s : List Byte) : ∀ c : Nat, removeFrom c 0 (wrapFrom c s) = s := by
  induction s with
  | nil => intro c; simp [wrapFrom, removeFrom]
  | cons b s ih =>
    intro c
    rw [wrapFrom]
    by_cases h1 : c + 1 = 76
    · rw [if_pos h1]
      simp only [removeFrom, h1, if_true]
      rw [ih 0]
    · rw [if_neg h1]
      simp only [removeFrom, h1, if_false]
      rw [ih (c + 1)]

/-- Successive writes to an accepting stream: every call returns its slice
length and `nil`, and together the calls deliver `wrapFrom c` of the
concatenated slices. -/
theorem writeAll_accepting (fuel : Nat) (ps : List (List Byte)) :
    ∀ (c : Nat) (log : List Call), c < 76 → (∀ p ∈ ps, p.length < fuel) →
    ∃ calls, WriteAll accepting fuel (c : Int) log ps
        = some (ps.map (fun p => ((p.length : Int), none)),
            (((c + ps.flatten.length) % 76 : Nat) : Int), log ++ calls)
      ∧ delivered calls = wrapFrom c ps.flatten
      ∧ breaks calls = (c + ps.flatten.length) / 76 := by
  induction ps with
  | nil =>
    intro c log hc _
    exact ⟨[], by simp [WriteAll, Nat.mod_eq_of_lt hc], by simp [delivered, wrapFrom],
      by simp [breaks]; omega⟩
  | cons p ps ih =>
    intro c log hc hfuel
    obtain ⟨calls1, h1, h2, h3, _⟩ := loop_accepting fuel c log p 0 hc
      (hfuel p (List.mem_cons_self _ _))
    obtain ⟨calls2, g1, g2, g3⟩ := ih ((c + p.length) % 76) (log ++ calls1)
      (Nat.mod_lt _ (by omega)) (fun q hq => hfuel q (List.mem_cons_of_mem _ hq))
    refine ⟨calls1 ++ calls2, ?_, ?_, ?_⟩
    · rw [WriteAll, Write, h1]
      simp only [g1]
      have e : ((c + p.length) % 76 + ps.flatten.length) % 76
          = (c + (p :: ps).flatten.length) % 76 := by
        simp only [List.flatten_cons, List.length_append]; omega
      rw [e]
      simp
    · rw [delivered_append, h2, g2, List.flatten_cons, wrapFrom_append _ _ _ hc]
    · rw [breaks_append, h3, g3]
      simp only [List.flatten_cons, List.length_append]
      omega

theorem wrapFrom_length (s : List Byte) : ∀ c : Nat, c < 76 →
    (wrapFrom c s).length = s.length + 2 * ((c + s.length) / 76) := by
  induction s with
  | nil => intro c h; simp [wrapFrom]; omega
  | cons b s ih =>
    intro c h
    rw [wrapFrom]
    by_cases h1 : c + 1 = 76
    · rw [if_pos h1]
      simp only [List.length_cons, ih 0 (by omega)]
      omega
    · rw [if_neg h1]
      simp only [List.length_cons, ih (c + 1) (by omega)]
      have e : c + 1 + s.length = c + (s.length + 1) := by omega
      rw [e]
      omega

/-- Payload byte `j` of the input stands at position `j + 2 * ((c + j) / 76)`
of the wrapped output. -/
theorem wrapFrom_getElem_payload (s : List Byte) : ∀ (c j : Nat), c < 76 → j < s.length →
    (wrapFrom c s)[j + 2 * ((c + j) / 76)]? = s[j]? := by
  induction s with
  | nil => intro c j _ h; simp at h
  | cons b s ih =>
    intro c j hc hj
    rw [wrapFrom]
    cases j with
    | zero =>
      have e : 0 + 2 * ((c + 0) / 76) = 0 := by omega
      rw [e]
      by_cases h1 : c + 1 = 76
      · rw [if_pos h1]; simp
      · rw [if_neg h1]; simp
    | succ j =>
      simp only [List.length_cons] at hj
      by_cases h1 : c + 1 = 76
      · rw [if_pos h1]
        have e : j + 1 + 2 * ((c + (j + 1)) / 76) = (j + 2 * ((0 + j) / 76)) + 1 + 1 + 1 := by
          omega
        rw [e, List.getElem?_cons_succ, List.getElem?_cons_succ, List.getElem?_cons_succ,
          List.getElem?_cons_succ, ih 0 j (by omega) (by omega)]
      · rw [if_neg h1]
        have e : j + 1 + 2 * ((c + (j + 1)) / 76) = (j + 2 * ((c + 1 + j) / 76)) + 1 := by
          omega
        rw [e, List.getElem?_cons_succ, List.getElem?_cons_succ,
          ih (c + 1) j (by omega) (by omega)]

/-- The bytes CR and LF stand right after the `t`-th full line. -/
theorem wrapFrom_getElem_break (s : List Byte) : ∀ (c t : Nat), c < 76 → 1 ≤ t →
    76 * t ≤ c + s.length →
    (wrapFrom c s)[78 * t - c - 2]? = some 13 ∧ (wrapFrom c s)[78 * t - c - 1]? = some 10 := by
  induction s with
  | nil => intro c t hc ht h; simp at h; omega
  | cons b s ih =>
    intro c t hc ht h
    simp only [List.length_cons] at h
    rw [wrapFrom]
    by_cases h1 : c + 1 = 76
    · rw [if_pos h1]
      by_cases ht1 : t = 1
      · subst ht1
        have e1 : 78 * 1 - c - 2 = 0 + 1 := by omega
        have e2 : 78 * 1 - c - 1 = 0 + 1 + 1 := by omega
        rw [e1, e2]
        simp
      · obtain ⟨g1, g2⟩ := ih 0 (t - 1) (by omega) (by omega) (by omega)
        have e1 : 78 * t - c - 2 = (78 * (t - 1) - 0 - 2) + 1 + 1 + 1 := by omega
        have e2 : 78 * t - c - 1 = (78 * (t - 1) - 0 - 1) + 1 + 1 + 1 := by omega
        rw [e1, e2]
        simp only [List.getElem?_cons_succ]
        exact ⟨g1, g2⟩
    · rw [if_neg h1]
      obtain ⟨g1, g2⟩ := ih (c + 1) t (by omega) ht (by omega)
      have e1 : 78 * t - c - 2 = (78 * t - (c + 1) - 2) + 1 := by omega
      have e2 : 78 * t - c - 1 = (78 * t - (c + 1) - 1) + 1 := by omega
      rw [e1, e2]
      simp only [List.getElem?_cons_succ]
      exact ⟨g1, g2⟩

theorem length_le_flatten_length (ps : List (List Byte)) (p : List Byte) (h : p ∈ ps) :
    p.length ≤ ps.flatten.length := by
  induction ps with
  | nil => simp at h
  | cons q ps ih =>
    simp only [List.flatten_cons, List.length_append]
    rcases List.mem_cons.mp h with h1 | h1
    · subst h1; omega
    · have := ih h1; omega

/-! ## The claims on `writer.Write` -/

/-- C1: slices `p1..pk` written with `writer.Write`, from counter 0, to a
stream that accepts every write in full: every call returns, and the bytes
delivered are the concatenation of the slices with CR LF inserted immediately
after every 76th payload byte and nothing else changed. Payload byte `j` stands
at output position `j + 2 * (j / 76)`, the pair CR LF follows the `t`-th full
line at positions `78 t - 2` and `78 t - 1`, the output has
`N + 2 * (N / 76)` bytes, and deleting the inserted pairs by position gives the
input back, whatever bytes the input holds. -/
theorem C1_write_inserts_crlf_after_every_76th_byte (ps : List (List Byte)) (fuel : Nat)
    (hfuel : ∀ p ∈ ps, p.length < fuel) :
    ∃ rs i log, WriteAll accepting fuel 0 [] ps = some (rs, i, log)
      ∧ delivered log = insertBreaks ps.flatten
      ∧ removeBreaks (delivered log) = ps.flatten
      ∧ (delivered log).length = ps.flatten.length + 2 * (ps.flatten.length / 76)
      ∧ (∀ j, j < ps.flatten.length → (delivered log)[j + 2 * (j / 76)]? = ps.flatten[j]?)
      ∧ (∀ t, 1 ≤ t → 76 * t ≤ ps.flatten.length →
          (delivered log)[78 * t - 2]? = some 13 ∧ (delivered log)[78 * t - 1]? = some 10) := by
  obtain ⟨calls, h1, h2, _⟩ := writeAll_accepting fuel ps 0 [] (by omega) hfuel
  refine ⟨_, _, _, h1, ?_, ?_, ?_, ?_, ?_⟩
  · simpa [insertBreaks] using h2
  · simp only [List.nil_append, h2, removeBreaks, removeFrom_wrapFrom]
  · simp only [List.nil_append, h2]
    rw [wrapFrom_length _ 0 (by omega)]
    simp
  · intro j hj
    simp only [List.nil_append, h2]
    have := wrapFrom_getElem_payload ps.flatten 0 j (by omega) hj
    simpa using this
  · intro t ht h
    simp only [List.nil_append, h2]
    have := wrapFrom_getElem_break ps.flatten 0 t (by omega) ht (by omega)
    simpa using this

/-- Witness of C1: three slices, one of them empty, with CR and LF among the
payload bytes. -/
theorem C1_write_inserts_crlf_witness :
    (∀ p ∈ [[(13 : Byte), 10], [], [65]], p.length < 3) ∧
    ∃ rs i log, WriteAll accepting 3 0 [] [[(13 : Byte), 10], [], [65]] = some (rs, i, log)
      ∧ delivered log = insertBreaks [[(13 : Byte), 10], [], [65]].flatten
      ∧ removeBreaks (delivered log) = [[(13 : Byte), 10], [], [65]].flatten
      ∧ (delivered log).length = [[(13 : Byte), 10], [], [65]].flatten.length
          + 2 * ([[(13 : Byte), 10], [], [65]].flatten.length / 76)
      ∧ (∀ j, j < [[(13 : Byte), 10], [], [65]].flatten.length →
          (delivered log)[j + 2 * (j / 76)]? = [[(13 : Byte), 10], [], [65]].flatten[j]?)
      ∧ (∀ t, 1 ≤ t → 76 * t ≤ [[(13 : Byte), 10], [], [65]].flatten.length →
          (delivered log)[78 * t - 2]? = some 13 ∧ (delivered log)[78 * t - 1]? = some 10) :=
  ⟨by decide, C1_write_inserts_crlf_after_every_76th_byte [[13, 10], [], [65]] 3 (by decide)⟩

/-- C2, as stated, fails: one `Write` of `N = 76` bytes to a fresh writer over
an accepting stream returns `(76, nil)`, leaves the counter at 0 and makes one
line-break call (the output has 78 bytes), where the claim gives
`76 / 76 - 1 = 0` breaks for a positive multiple of 76. -/
theorem C2_break_count_counterexample :
    (WriteAll accepting 77 0 [] [List.replicate 76 (65 : Byte)]).map
        (fun r => (r.1, r.2.1, breaks r.2.2, (delivered r.2.2).length))
      = some ([((76 : Int), none)], (0 : Int), 1, 78)
    ∧ [List.replicate 76 (65 : Byte)].flatten.length = 76
    ∧ 76 % 76 = 0
    ∧ ¬ (1 = 76 / 76 - 1) := by
  set_option maxRecDepth 100000 in decide

/-- C2, amended: for every sequence of `writer.Write` calls totalling `N`
bytes on a fresh writer over an accepting stream, the number of CR LF breaks
written is `N / 76`, also when `N` is a positive multiple of 76 (the break
after the final full line is written at once), and the output has
`N + 2 * (N / 76)` bytes. -/
theorem C2_break_count_is_floor (ps : List (List Byte)) (fuel : Nat)
    (hfuel : ∀ p ∈ ps, p.length < fuel) :
    ∃ rs i log, WriteAll accepting fuel 0 [] ps = some (rs, i, log)
      ∧ breaks log = ps.flatten.length / 76
      ∧ (delivered log).length = ps.flatten.length + 2 * (ps.flatten.length / 76) := by
  obtain ⟨calls, h1, h2, h3⟩ := writeAll_accepting fuel ps 0 [] (by omega) hfuel
  refine ⟨_, _, _, h1, ?_, ?_⟩
  · simpa using h3
  · simp only [List.nil_append, h2]
    rw [wrapFrom_length _ 0 (by omega)]
    simp

/-- Witness of the amended C2: two slices of 76 bytes each. -/
theorem C2_break_count_is_floor_witness :
    (∀ p ∈ [List.replicate 76 (65 : Byte), List.replicate 76 (66 : Byte)], p.length < 77) ∧
    ∃ rs i log, WriteAll accepting 77 0 []
        [List.replicate 76 (65 : Byte), List.replicate 76 (66 : Byte)] = some (rs, i, log)
      ∧ breaks log
          = [List.replicate 76 (65 : Byte), List.replicate 76 (66 : Byte)].flatten.length / 76
      ∧ (delivered log).length
          = [List.replicate 76 (65 : Byte), List.replicate 76 (66 : Byte)].flatten.length
            + 2 * ([List.replicate 76 (65 : Byte),
                List.replicate 76 (66 : Byte)].flatten.length / 76) :=
  ⟨by simp, C2_break_count_is_floor _ 77 (by simp)⟩

/-- C3: the output of `writer.Write` does not depend on how the input is cut
into calls. Two cuts `ps` and `qs` of one byte sequence (empty slices and
slices of more than 76 bytes allowed), each written in order to a fresh writer
over an accepting stream, deliver the same bytes and leave the same counter,
and so does one `Write` of the whole sequence. -/
theorem C3_write_independent_of_cut (ps qs : List (List Byte)) (fuel : Nat)
    (hcut : ps.flatten = qs.flatten) (hfuel : ps.flatten.length < fuel) :
    ∃ r1 r2 r3 i log1 log2 log3,
      WriteAll accepting fuel 0 [] ps = some (r1, i, log1)
      ∧ WriteAll accepting fuel 0 [] qs = some (r2, i, log2)
      ∧ WriteAll accepting fuel 0 [] [ps.flatten] = some (r3, i, log3)
      ∧ delivered log1 = delivered log3
      ∧ delivered log2 = delivered log3
      ∧ i = ((ps.flatten.length % 76 : Nat) : Int) := by
  have hp : ∀ p ∈ ps, p.length < fuel := fun p hp =>
    Nat.lt_of_le_of_lt (length_le_flatten_length ps p hp) hfuel
  have hq : ∀ q ∈ qs, q.length < fuel := fun q hq =>
    Nat.lt_of_le_of_lt (length_le_flatten_length qs q hq) (hcut ▸ hfuel)
  have hs : ∀ q ∈ [ps.flatten], q.length < fuel := by
    intro q hq
    rw [List.mem_singleton] at hq
    subst hq
    exact hfuel
  obtain ⟨c1, h1, h2, _⟩ := writeAll_accepting fuel ps 0 [] (by omega) hp
  obtain ⟨c2, g1, g2, _⟩ := writeAll_accepting fuel qs 0 [] (by omega) hq
  obtain ⟨c3, k1, k2, _⟩ := writeAll_accepting fuel [ps.flatten] 0 [] (by omega) hs
  have e : [ps.flatten].flatten = ps.flatten := by simp
  rw [e] at k1 k2
  rw [← hcut] at g1 g2
  simp only [Nat.zero_add, List.nil_append, Nat.cast_zero] at h1 g1 k1
  exact ⟨_, _, _, _, _, _, _, h1, g1, k1, by rw [h2, k2], by rw [g2, k2], rfl⟩

/-- Witness of C3: 80 bytes cut as 80 + 0 and as 3 + 77. -/
theorem C3_write_independent_of_cut_witness :
    [List.replicate 80 (65 : Byte), []].flatten
      = [List.replicate 3 (65 : Byte), List.replicate 77 (65 : Byte)].flatten
    ∧ [List.replicate 80 (65 : Byte), []].flatten.length < 81
    ∧ ∃ r1 r2 r3 i log1 log2 log3,
      WriteAll accepting 81 0 [] [List.replicate 80 (65 : Byte), []] = some (r1, i, log1)
      ∧ WriteAll accepting 81 0 [] [List.replicate 3 (65 : Byte), List.replicate 77 (65 : Byte)]
          = some (r2, i, log2)
      ∧ WriteAll accepting 81 0 [] [[List.replicate 80 (65 : Byte), []].flatten]
          = some (r3, i, log3)
      ∧ delivered log1 = delivered log3
      ∧ delivered log2 = delivered log3
      ∧ i = (([List.replicate 80 (65 : Byte), []].flatten.length % 76 : Nat) : Int) :=
  ⟨by decide, by decide, C3_write_independent_of_cut _ _ 81 (by decide) (by decide)⟩

/-- C10: for a counter in `[0,76)` and any slice `p`, over an accepting stream,
`writer.Write` returns (with more fuel than `len(p)` iterations it has ended),
no slice expression panics, every chunk length `k` satisfies `0 < k`,
`k ≤ len(p)` of the bytes still to be written and `k ≤ 76 - i`, and the result
is `n = len(p)` with a `nil` error, while the stream received
`len(p) + 2 * breaks` bytes: `n` leaves the CR LF bytes out. -/
theorem C10_write_returns_len (i : Int) (log : List Call) (p : List Byte) (fuel : Nat)
    (h0 : 0 ≤ i) (h76 : i < 76) (hfuel : p.length < fuel) :
    ∃ i1 calls, Write accepting fuel i log p
        = Outcome.ret (p.length : Int) none i1 (log ++ calls)
      ∧ chunksOk i.toNat p.length calls = true
      ∧ (delivered calls).length = p.length + 2 * breaks calls
      ∧ 0 ≤ i1 ∧ i1 < 76 := by
  obtain ⟨calls, h1, h2, h3, h4⟩ := loop_accepting fuel i.toNat log p 0 (by omega) hfuel
  have e : ((i.toNat : Nat) : Int) = i := Int.toNat_of_nonneg h0
  rw [e] at h1
  refine ⟨(((i.toNat + p.length) % 76 : Nat) : Int), calls, ?_, h4, ?_, ?_, ?_⟩
  · rw [Write, h1]; simp
  · rw [h2, wrapFrom_length _ _ (by omega), h3]
  · omega
  · omega

/-- Witness of C10: counter 70 and 10 bytes, so that the slice is cut in two. -/
theorem C10_write_returns_len_witness :
    (0 : Int) ≤ 70 ∧ (70 : Int) < 76 ∧ (List.replicate 10 (65 : Byte)).length < 11 ∧
    ∃ i1 calls, Write accepting 11 70 [] (List.replicate 10 (65 : Byte))
        = Outcome.ret ((List.replicate 10 (65 : Byte)).length : Int) none i1 ([] ++ calls)
      ∧ chunksOk (70 : Int).toNat (List.replicate 10 (65 : Byte)).length calls = true
      ∧ (delivered calls).length = (List.replicate 10 (65 : Byte)).length + 2 * breaks calls
      ∧ 0 ≤ i1 ∧ i1 < 76 :=
  ⟨by decide, by decide, by decide,
    C10_write_returns_len 70 [] _ 11 (by decide) (by decide) (by decide)⟩

/-! ## `writer.Write` over an arbitrary stream -/

theorem lineAttempted_append (l1 l2 : List Call) : ∀ i : Int,
    lineAttempted i (l1 ++ l2) = lineAttempted (lineAttempted i l1) l2 := by
  induction l1 with
  | nil => intro i; simp [lineAttempted]
  | cons c cs ih =>
    intro i
    rw [List.cons_append, lineAttempted, lineAttempted]
    split
    · exact ih 0
    · exact ih (i + c.m)

theorem payloadCount_append (l1 l2 : List Call) :
    payloadCount (l1 ++ l2) = payloadCount l1 + payloadCount l2 := by
  induction l1 with
  | nil => simp [payloadCount]
  | cons c cs ih =>
    rw [List.cons_append, payloadCount, payloadCount, ih]
    split
    · rfl
    · omega

/-- The calls of a run extend the calls made before it. -/
theorem loop_log_extends (w : Under) (fuel : Nat) :
    ∀ (i : Int) (log : List Call) (p : List Byte) (n r : Int),
    ∃ calls, (Write.loop w fuel i log p n r).log = log ++ calls := by
  induction fuel with
  | zero => intro i log p n r; exact ⟨[], by simp [Write.loop, Outcome.log]⟩
  | succ fuel ih =>
    intro i log p n r
    rw [Write.loop]
    simp only
    generalize (if (p.length : Int) ≤ r then (p.length : Int) else r) = k
    generalize List.take k.toNat p = q
    generalize w log q = res
    obtain ⟨m, err⟩ := res
    simp only
    generalize w (log ++ [Call.mk false q m err]) crlf = res2
    obtain ⟨m2, err2⟩ := res2
    simp only
    split
    · split
      · exact ⟨[], by simp [Outcome.log]⟩
      · split
        · exact ⟨[Call.mk false q m err], by simp [Outcome.log]⟩
        · split
          · exact ⟨[Call.mk false q m err], by simp [Outcome.log]⟩
          · split
            · split
              · exact ⟨[Call.mk false q m err, Call.mk true crlf m2 err2],
                  by simp [Outcome.log]⟩
              · obtain ⟨calls, h⟩ := ih 0 (log ++ [Call.mk false q m err]
                  ++ [Call.mk true crlf m2 err2]) (List.drop m.toNat p) (n + m) (76 - 0)
                exact ⟨[Call.mk false q m err, Call.mk true crlf m2 err2] ++ calls,
                  by rw [h]; simp⟩
            · obtain ⟨calls, h⟩ := ih (i + m) (log ++ [Call.mk false q m err])
                  (List.drop m.toNat p) (n + m) (76 - (i + m))
              exact ⟨[Call.mk false q m err] ++ calls, by rw [h]; simp⟩
    · exact ⟨[], by simp [Outcome.log]⟩

/-- A return with an error: the failing call is the last call made, all calls
before it succeeded, `n` grew by the payload counts, and the counter is the
payload count since the last break attempted. -/
theorem loop_error_return (w : Under) (fuel : Nat) :
    ∀ (i : Int) (log : List Call) (p : List Byte) (n r n1 : Int) (e : Err) (i1 : Int)
      (log1 : List Call),
    Write.loop w fuel i log p n r = Outcome.ret n1 (some e) i1 log1 →
    ∃ calls c, log1 = log ++ (calls ++ [c])
      ∧ c.err = some e
      ∧ (∀ d ∈ calls, d.err = none)
      ∧ n1 = n + payloadCount (calls ++ [c])
      ∧ i1 = lineAttempted i (calls ++ [c])
      ∧ (c.isBreak = true → i1 = 0)
      ∧ (c.m, c.err) = w (log ++ calls) c.slice := by
  induction fuel with
  | zero => intro i log p n r n1 e i1 log1 h; simp [Write.loop] at h
  | succ fuel ih =>
    intro i log p n r n1 e i1 log1 h
    rw [Write.loop] at h
    simp only at h
    generalize (if (p.length : Int) ≤ r then (p.length : Int) else r) = k at h
    generalize List.take k.toNat p = q at h
    generalize hres : w log q = res at h
    obtain ⟨m, err⟩ := res
    simp only at h
    by_cases hlen : 0 < p.length
    · rw [if_pos hlen] at h
      by_cases hk : k < 0
      · rw [if_pos hk] at h; simp at h
      · rw [if_neg hk] at h
        by_cases hm : m < 0 ∨ (p.length : Int) < m
        · rw [if_pos hm] at h; simp at h
        · rw [if_neg hm] at h
          by_cases herr : err ≠ none
          · rw [if_pos herr] at h
            simp only [Outcome.ret.injEq] at h
            obtain ⟨h1, h2, h3, h4⟩ := h
            refine ⟨[], Call.mk false q m err, ?_, ?_, ?_, ?_, ?_, ?_, ?_⟩
            · simp [← h4]
            · exact h2
            · simp
            · simp [payloadCount, ← h1]
            · simp [lineAttempted, ← h3]
            · simp
            · simp [hres]
          · rw [if_neg herr] at h
            have herr0 : err = none := by simpa using herr
            subst herr0
            by_cases hfull : i + m = 76
            · rw [if_pos hfull] at h
              generalize hres2 : w (log ++ [Call.mk false q m none]) crlf = res2 at h
              obtain ⟨m2, err2⟩ := res2
              simp only at h
              by_cases herr2 : err2 ≠ none
              · rw [if_pos herr2] at h
                simp only [Outcome.ret.injEq] at h
                obtain ⟨h1, h2, h3, h4⟩ := h
                refine ⟨[Call.mk false q m none], Call.mk true crlf m2 err2,
                  ?_, ?_, ?_, ?_, ?_, ?_, ?_⟩
                · simp [← h4]
                · exact h2
                · simp
                · simp [payloadCount, ← h1]
                · simp [lineAttempted, ← h3]
                · intro _; exact h3.symm
                · simp [hres2]
              · rw [if_neg herr2] at h
                have herr0 : err2 = none := by simpa using herr2
                subst herr0
                obtain ⟨calls, c, g1, g2, g3, g4, g5, g6, g7⟩ := ih _ _ _ _ _ _ _ _ _ h
                refine ⟨[Call.mk false q m none, Call.mk true crlf m2 none] ++ calls, c,
                  ?_, g2, ?_, ?_, ?_, g6, ?_⟩
                · simp [g1]
                · intro d hd
                  simp only [List.cons_append, List.nil_append, List.mem_cons] at hd
                  rcases hd with hd | hd | hd
                  · simp [hd]
                  · simp [hd]
                  · exact g3 d hd
                · rw [g4]
                  simp only [List.cons_append, List.nil_append, payloadCount]
                  simp
                  omega
                · rw [g5]
                  simp only [List.cons_append, List.nil_append, lineAttempted]
                  simp
                · rw [g7]; simp
            · rw [if_neg hfull] at h
              obtain ⟨calls, c, g1, g2, g3, g4, g5, g6, g7⟩ := ih _ _ _ _ _ _ _ _ _ h
              refine ⟨[Call.mk false q m none] ++ calls, c, ?_, g2, ?_, ?_, ?_, g6, ?_⟩
              · simp [g1]
              · intro d hd
                simp only [List.cons_append, List.nil_append, List.mem_cons] at hd
                rcases hd with hd | hd
                · simp [hd]
                · exact g3 d hd
              · rw [g4]
                simp only [List.cons_append, List.nil_append, payloadCount]
                simp
                omega
              · rw [g5]
                simp only [List.cons_append, List.nil_append, lineAttempted]
                simp
              · rw [g7]; simp
    · rw [if_neg hlen] at h
      simp at h

/-- The first failing call ends the run: when a call that reports a count in
range returns an error, no call follows it and `Write` returns that error. -/
theorem loop_first_failure (w : Under) (fuel : Nat) :
    ∀ (i : Int) (log : List Call) (p : List Byte) (n r : Int) (pre : List Call) (c : Call)
      (post : List Call),
    (Write.loop w fuel i log p n r).log = log ++ (pre ++ c :: post) →
    c.err ≠ none → 0 ≤ c.m → c.m ≤ (c.slice.length : Int) →
    post = [] ∧ ∃ n1 i1,
      Write.loop w fuel i log p n r = Outcome.ret n1 c.err i1 (log ++ (pre ++ [c])) := by
  induction fuel with
  | zero =>
    intro i log p n r pre c post h _ _ _
    simp [Write.loop, Outcome.log] at h
  | succ fuel ih =>
    intro i log p n r pre c post h hc h0 hm
    rw [Write.loop] at h ⊢
    simp only at h ⊢
    generalize hkdef : (if (p.length : Int) ≤ r then (p.length : Int) else r) = k at h ⊢
    have hkp : k ≤ (p.length : Int) := by
      rw [← hkdef]; split <;> omega
    generalize hqdef : List.take k.toNat p = q at h ⊢
    have hqp : q.length ≤ p.length := by
      rw [← hqdef, List.length_take]; omega
    generalize w log q = res at h ⊢
    obtain ⟨m, err⟩ := res
    simp only at h ⊢
    generalize w (log ++ [Call.mk false q m err]) crlf = res2 at h ⊢
    obtain ⟨m2, err2⟩ := res2
    simp only at h ⊢
    by_cases hlen : 0 < p.length
    · rw [if_pos hlen] at h ⊢
      by_cases hk : k < 0
      · rw [if_pos hk] at h; simp [Outcome.log] at h
      · rw [if_neg hk] at h ⊢
        by_cases hmr : m < 0 ∨ (p.length : Int) < m
        · rw [if_pos hmr] at h
          simp only [Outcome.log, List.append_cancel_left_eq] at h
          cases pre with
          | nil =>
            simp only [List.nil_append, List.cons.injEq] at h
            obtain ⟨h1, _⟩ := h
            subst h1
            simp only at h0 hm
            omega
          | cons x pre1 => simp at h
        · rw [if_neg hmr] at h ⊢
          by_cases herr : err ≠ none
          · rw [if_pos herr] at h ⊢
            simp only [Outcome.log, List.append_cancel_left_eq] at h
            cases pre with
            | nil =>
              simp only [List.nil_append, List.cons.injEq] at h
              obtain ⟨h1, h2⟩ := h
              subst h1
              exact ⟨h2.symm, _, _, rfl⟩
            | cons x pre1 => simp at h
          · rw [if_neg herr] at h ⊢
            have herr0 : err = none := by simpa using herr
            subst herr0
            by_cases hfull : i + m = 76
            · rw [if_pos hfull] at h ⊢
              by_cases herr2 : err2 ≠ none
              · rw [if_pos herr2] at h ⊢
                simp only [Outcome.log, List.append_assoc, List.append_cancel_left_eq,
                  List.singleton_append, List.cons_append,
                  List.nil_append] at h
                cases pre with
                | nil =>
                  simp only [List.nil_append, List.cons.injEq] at h
                  obtain ⟨h1, _⟩ := h
                  subst h1
                  simp at hc
                | cons x pre1 =>
                  cases pre1 with
                  | nil =>
                    simp only [List.cons_append, List.nil_append, List.cons.injEq] at h
                    obtain ⟨h1, h2, h3⟩ := h
                    subst h1 h2
                    exact ⟨h3.symm, n + m, 0, by simp⟩
                  | cons y pre2 => simp at h
              · rw [if_neg herr2] at h ⊢
                have herr0 : err2 = none := by simpa using herr2
                subst herr0
                obtain ⟨calls, hcalls⟩ := loop_log_extends w fuel 0
                  (log ++ [Call.mk false q m none] ++ [Call.mk true crlf m2 none])
                  (List.drop m.toNat p) (n + m) (76 - 0)
                rw [hcalls] at h
                simp only [List.append_assoc, List.append_cancel_left_eq,
                  List.singleton_append, List.cons_append,
                  List.nil_append] at h
                cases pre with
                | nil =>
                  simp only [List.nil_append, List.cons.injEq] at h
                  obtain ⟨h1, _⟩ := h
                  subst h1
                  simp at hc
                | cons x pre1 =>
                  cases pre1 with
                  | nil =>
                    simp only [List.cons_append, List.nil_append, List.cons.injEq] at h
                    obtain ⟨_, h2, _⟩ := h
                    subst h2
                    simp at hc
                  | cons y pre2 =>
                    simp only [List.cons_append, List.cons.injEq] at h
                    obtain ⟨h1, h2, h3⟩ := h
                    subst h1 h2
                    rw [h3] at hcalls
                    obtain ⟨g1, n1, i1, g2⟩ := ih _ _ _ _ _ pre2 c post hcalls hc h0 hm
                    refine ⟨g1, n1, i1, ?_⟩
                    rw [g2]; simp
            · rw [if_neg hfull] at h ⊢
              obtain ⟨calls, hcalls⟩ := loop_log_extends w fuel (i + m)
                (log ++ [Call.mk false q m none])
                (List.drop m.toNat p) (n + m) (76 - (i + m))
              rw [hcalls] at h
              simp only [List.append_assoc, List.append_cancel_left_eq,
                List.singleton_append, List.cons_append,
                  List.nil_append] at h
              cases pre with
              | nil =>
                simp only [List.nil_append, List.cons.injEq] at h
                obtain ⟨h1, _⟩ := h
                subst h1
                simp at hc
              | cons x pre1 =>
                simp only [List.cons_append, List.cons.injEq] at h
                obtain ⟨h1, h3⟩ := h
                subst h1
                rw [h3] at hcalls
                obtain ⟨g1, n1, i1, g2⟩ := ih _ _ _ _ _ pre1 c post hcalls hc h0 hm
                refine ⟨g1, n1, i1, ?_⟩
                rw [g2]; simp
    · rw [if_neg hlen] at h
      simp [Outcome.log] at h

/-- Over a stream that reports `0 ≤ m ≤ len(slice)`, from a counter in
`[0,76]`: no slice expression panics, the counter stays in `[0,76]`, and a
return without error leaves it below 76. -/
theorem loop_counter_range (w : Under) (hw : WellBehaved w) (fuel : Nat) :
    ∀ (i : Int) (log : List Call) (p : List Byte) (n : Int), 0 ≤ i → i ≤ 76 →
    (∀ j l, Write.loop w fuel i log p n (76 - i) ≠ Outcome.panic j l)
    ∧ 0 ≤ (Write.loop w fuel i log p n (76 - i)).counter
    ∧ (Write.loop w fuel i log p n (76 - i)).counter ≤ 76
    ∧ (∀ n1 i1 log1, Write.loop w fuel i log p n (76 - i) = Outcome.ret n1 none i1 log1 →
        (i < 76 ∨ 0 < p.length) → i1 < 76) := by
  induction fuel with
  | zero =>
    intro i log p n h0 h76
    simp [Write.loop, Outcome.counter, h0, h76]
  | succ fuel ih =>
    intro i log p n h0 h76
    rw [Write.loop]
    simp only
    generalize hkdef : (if (p.length : Int) ≤ 76 - i then (p.length : Int) else 76 - i) = k
    have hkp : k ≤ (p.length : Int) := by
      rw [← hkdef]; split <;> omega
    have hkr : k ≤ 76 - i := by
      rw [← hkdef]; split <;> omega
    have hk0 : 0 ≤ k := by
      rw [← hkdef]; split <;> omega
    generalize hqdef : List.take k.toNat p = q
    have hql : (q.length : Int) = k := by
      rw [← hqdef, List.length_take]; omega
    have hwq := hw log q
    generalize w log q = res at hwq ⊢
    obtain ⟨m, err⟩ := res
    simp only at hwq ⊢
    generalize w (log ++ [Call.mk false q m err]) crlf = res2
    obtain ⟨m2, err2⟩ := res2
    simp only
    obtain ⟨hm0, hmq⟩ := hwq
    by_cases hlen : 0 < p.length
    · rw [if_pos hlen]
      have hk : ¬ (k < 0) := by omega
      rw [if_neg hk]
      have hmr : ¬ (m < 0 ∨ (p.length : Int) < m) := by omega
      rw [if_neg hmr]
      by_cases herr : err ≠ none
      · rw [if_pos herr]
        refine ⟨by simp, by simp only [Outcome.counter]; omega,
          by simp only [Outcome.counter]; omega, ?_⟩
        intro n1 i1 log1 h _
        simp only [Outcome.ret.injEq] at h
        exact absurd h.2.1 herr
      · rw [if_neg herr]
        by_cases hfull : i + m = 76
        · rw [if_pos hfull]
          by_cases herr2 : err2 ≠ none
          · rw [if_pos herr2]
            refine ⟨by simp, by simp [Outcome.counter], by simp [Outcome.counter], ?_⟩
            intro n1 i1 log1 h _
            simp only [Outcome.ret.injEq] at h
            exact absurd h.2.1 herr2
          · rw [if_neg herr2]
            obtain ⟨g1, g2, g3, g4⟩ := ih 0 (log ++ [Call.mk false q m err]
              ++ [Call.mk true crlf m2 err2]) (List.drop m.toNat p) (n + m) (by omega) (by omega)
            refine ⟨g1, g2, g3, ?_⟩
            intro n1 i1 log1 h _
            exact g4 n1 i1 log1 h (Or.inl (by omega))
        · rw [if_neg hfull]
          obtain ⟨g1, g2, g3, g4⟩ := ih (i + m) (log ++ [Call.mk false q m err])
            (List.drop m.toNat p) (n + m) (by omega) (by omega)
          refine ⟨g1, g2, g3, ?_⟩
          intro n1 i1 log1 h _
          exact g4 n1 i1 log1 h (Or.inl (by omega))
    · rw [if_neg hlen]
      refine ⟨by simp, by simp only [Outcome.counter]; omega,
        by simp only [Outcome.counter]; omega, ?_⟩
      intro n1 i1 log1 h hor
      simp only [Outcome.ret.injEq] at h
      rcases hor with hor | hor
      · omega
      · exact absurd hor hlen

theorem lineAttempted_eq_lineDelivered (l : List Call) : ∀ i : Int,
    (∀ d ∈ l, d.isBreak = true → d.m = 2) → lineAttempted i l = lineDelivered i l := by
  induction l with
  | nil => intro i _; rfl
  | cons c cs ih =>
    intro i h
    have hcs : ∀ d ∈ cs, d.isBreak = true → d.m = 2 :=
      fun d hd => h d (List.mem_cons_of_mem _ hd)
    rw [lineAttempted, lineDelivered]
    by_cases hb : c.isBreak = true
    · rw [if_pos hb, if_pos hb, if_pos (h c (List.mem_cons_self _ _) hb)]
      exact ih 0 hcs
    · rw [if_neg hb, if_neg hb]
      exact ih (i + c.m) hcs

/-- C8, as stated, fails on the break write: a fresh writer, 76 bytes, a stream
that takes the payload and fails on CR LF without taking a byte. `Write`
returns `(76, e)` and the counter is 0, while the payload bytes delivered since
the last break that was delivered are 76. -/
theorem C8_counter_after_failed_break_counterexample :
    Write failingBreak 2 0 [] (List.replicate 76 (65 : Byte))
      = Outcome.ret 76 (some "broken pipe") 0
          [Call.mk false (List.replicate 76 (65 : Byte)) 76 none,
           Call.mk true crlf 0 (some "broken pipe")]
    ∧ lineDelivered 0 [Call.mk false (List.replicate 76 (65 : Byte)) 76 none,
           Call.mk true crlf 0 (some "broken pipe")] = 76
    ∧ ¬ ((0 : Int) = 76) := by
  set_option maxRecDepth 100000 in decide

/-- C8, amended: when a call of the underlying stream returns an error `e`
during `writer.Write` (payload or break, the reported count within
`0..len(slice)`), that call is the last one made, `Write` returns exactly `e`,
its `n` is the sum of the counts reported for the payload calls of this run,
and the counter is the number of payload bytes reported as written since the
last break that was attempted: it is 0 after a failed break write, whether or
not the break was delivered, and it is the count since the last delivered break
whenever every break call so far took both bytes. -/
theorem C8_write_error_aborts (w : Under) (fuel : Nat) (i : Int) (log : List Call)
    (p : List Byte) (pre : List Call) (c : Call) (post : List Call) (e : Err)
    (hlog : (Write w fuel i log p).log = log ++ (pre ++ c :: post))
    (hfail : c.err = some e) (h0 : 0 ≤ c.m) (hm : c.m ≤ (c.slice.length : Int)) :
    post = []
    ∧ Write w fuel i log p = Outcome.ret (payloadCount (pre ++ [c])) (some e)
        (lineAttempted i (pre ++ [c])) (log ++ (pre ++ [c]))
    ∧ (∀ d ∈ pre, d.err = none)
    ∧ (c.isBreak = true → lineAttempted i (pre ++ [c]) = 0)
    ∧ ((∀ d ∈ pre ++ [c], d.isBreak = true → d.m = 2) →
        lineAttempted i (pre ++ [c]) = lineDelivered i (pre ++ [c])) := by
  have hne : c.err ≠ none := by rw [hfail]; simp
  obtain ⟨hpost, n1, i1, hret⟩ := loop_first_failure w fuel i log p 0 (76 - i) pre c post
    hlog hne h0 hm
  rw [hfail] at hret
  obtain ⟨calls, c1, g1, g2, g3, g4, g5, g6, _⟩ :=
    loop_error_return w fuel i log p 0 (76 - i) n1 e i1 _ hret
  have hsplit : pre ++ [c] = calls ++ [c1] := List.append_cancel_left g1
  have hpre : pre = calls := List.append_inj_left' hsplit rfl
  have hc1 : c = c1 := by
    have hc := List.append_inj_right' hsplit rfl
    simpa using hc
  subst hpre hc1
  refine ⟨hpost, ?_, g3, ?_, ?_⟩
  · rw [Write, hret, g4, g5]; simp
  · intro hb; rw [← g5]; exact g6 hb
  · intro hall; exact lineAttempted_eq_lineDelivered _ i hall

/-- Witness of the amended C8: the failing break write of the counterexample. -/
theorem C8_write_error_aborts_witness :
    (Write failingBreak 2 0 [] (List.replicate 76 (65 : Byte))).log
      = [] ++ ([Call.mk false (List.replicate 76 (65 : Byte)) 76 none]
          ++ Call.mk true crlf 0 (some "broken pipe") :: [])
    ∧ (Call.mk true crlf 0 (some "broken pipe")).err = some "broken pipe"
    ∧ (0 : Int) ≤ (Call.mk true crlf 0 (some "broken pipe")).m
    ∧ (Call.mk true crlf 0 (some "broken pipe")).m
        ≤ ((Call.mk true crlf 0 (some "broken pipe")).slice.length : Int)
    ∧ ([] = ([] : List Call)
      ∧ Write failingBreak 2 0 [] (List.replicate 76 (65 : Byte))
        = Outcome.ret
            (payloadCount ([Call.mk false (List.replicate 76 (65 : Byte)) 76 none]
              ++ [Call.mk true crlf 0 (some "broken pipe")]))
            (some "broken pipe")
            (lineAttempted 0 ([Call.mk false (List.replicate 76 (65 : Byte)) 76 none]
              ++ [Call.mk true crlf 0 (some "broken pipe")]))
            ([] ++ ([Call.mk false (List.replicate 76 (65 : Byte)) 76 none]
              ++ [Call.mk true crlf 0 (some "broken pipe")]))
      ∧ (∀ d ∈ [Call.mk false (List.replicate 76 (65 : Byte)) 76 none], d.err = none)
      ∧ ((Call.mk true crlf 0 (some "broken pipe")).isBreak = true →
          lineAttempted 0 ([Call.mk false (List.replicate 76 (65 : Byte)) 76 none]
              ++ [Call.mk true crlf 0 (some "broken pipe")]) = 0)
      ∧ ((∀ d ∈ [Call.mk false (List.replicate 76 (65 : Byte)) 76 none]
              ++ [Call.mk true crlf 0 (some "broken pipe")], d.isBreak = true → d.m = 2) →
          lineAttempted 0 ([Call.mk false (List.replicate 76 (65 : Byte)) 76 none]
              ++ [Call.mk true crlf 0 (some "broken pipe")])
            = lineDelivered 0 ([Call.mk false (List.replicate 76 (65 : Byte)) 76 none]
              ++ [Call.mk true crlf 0 (some "broken pipe")]))) :=
  have h1 : (Write failingBreak 2 0 [] (List.replicate 76 (65 : Byte))).log
      = [] ++ ([Call.mk false (List.replicate 76 (65 : Byte)) 76 none]
          ++ Call.mk true crlf 0 (some "broken pipe") :: []) := by
    set_option maxRecDepth 100000 in decide
  ⟨h1, rfl, by decide, by decide,
    C8_write_error_aborts failingBreak 2 0 [] (List.replicate 76 (65 : Byte))
      [Call.mk false (List.replicate 76 (65 : Byte)) 76 none]
      (Call.mk true crlf 0 (some "broken pipe")) [] "broken pipe" h1 rfl (by decide) (by decide)⟩

/-- C9, as stated, fails on an error path: counter 75, one byte, a stream that
reports the byte written (`m = 1 = len(slice)`) together with an error. `Write`
returns with the counter at 76, outside `[0,76)`. -/
theorem C9_counter_reaches_76_counterexample :
    WellBehaved fullWithError
    ∧ (0 : Int) ≤ 75 ∧ (75 : Int) < 76
    ∧ Write fullWithError 2 75 [] [(65 : Byte)]
      = Outcome.ret 1 (some "late error") 76 [Call.mk false [(65 : Byte)] 1 (some "late error")]
    ∧ ¬ ((76 : Int) < 76) := by
  refine ⟨?_, by decide, by decide, by decide, by decide⟩
  intro log q
  simp [fullWithError]

/-- C9, amended: the counter stays in `0 ≤ i ≤ 76`. For a counter in `[0,76]`
and a stream that reports `0 ≤ m ≤ len(slice)` on every call, with or without
an error, no slice expression of `writer.Write` panics and the counter is in
`[0,76]` wherever the run stops. From a counter below 76 it is below 76 after a
return without error; after a return with an error the failing call is the
last call, and the counter is 0 when that call was the break write, so that it
is 76 only after a failing payload write that filled the line. -/
theorem C9_counter_stays_within_0_76 (w : Under) (fuel : Nat) (i : Int) (log : List Call)
    (p : List Byte) (hw : WellBehaved w) (h0 : 0 ≤ i) (h76 : i ≤ 76) :
    (∀ j l, Write w fuel i log p ≠ Outcome.panic j l)
    ∧ 0 ≤ (Write w fuel i log p).counter
    ∧ (Write w fuel i log p).counter ≤ 76
    ∧ (∀ n i1 log1, Write w fuel i log p = Outcome.ret n none i1 log1 → i < 76 → i1 < 76)
    ∧ (∀ n e i1 log1, Write w fuel i log p = Outcome.ret n (some e) i1 log1 →
        ∃ pre c, log1 = log ++ (pre ++ [c]) ∧ c.err = some e
          ∧ (c.isBreak = true → i1 = 0)
          ∧ (i1 = 76 → c.isBreak = false)) := by
  obtain ⟨g1, g2, g3, g4⟩ := loop_counter_range w hw fuel i log p 0 h0 h76
  refine ⟨g1, g2, g3, ?_, ?_⟩
  · intro n i1 log1 h hi
    exact g4 n i1 log1 h (Or.inl hi)
  · intro n e i1 log1 h
    obtain ⟨calls, c, k1, k2, _, _, _, k6, _⟩ :=
      loop_error_return w fuel i log p 0 (76 - i) n e i1 log1 h
    refine ⟨calls, c, k1, k2, k6, ?_⟩
    intro hi
    cases hb : c.isBreak with
    | false => rfl
    | true => have := k6 hb; omega

/-- Witness of the amended C9: the run of the counterexample. -/
theorem C9_counter_stays_within_0_76_witness :
    WellBehaved fullWithError ∧ (0 : Int) ≤ 75 ∧ (75 : Int) ≤ 76
    ∧ ((∀ j l, Write fullWithError 2 75 [] [(65 : Byte)] ≠ Outcome.panic j l)
      ∧ 0 ≤ (Write fullWithError 2 75 [] [(65 : Byte)]).counter
      ∧ (Write fullWithError 2 75 [] [(65 : Byte)]).counter ≤ 76
      ∧ (∀ n i1 log1, Write fullWithError 2 75 [] [(65 : Byte)] = Outcome.ret n none i1 log1 →
          (75 : Int) < 76 → i1 < 76)
      ∧ (∀ n e i1 log1, Write fullWithError 2 75 [] [(65 : Byte)]
            = Outcome.ret n (some e) i1 log1 →
          ∃ pre c, log1 = [] ++ (pre ++ [c]) ∧ c.err = some e
            ∧ (c.isBreak = true → i1 = 0)
            ∧ (i1 = 76 → c.isBreak = false))) :=
  have hw : WellBehaved fullWithError := by
    intro log q
    simp [fullWithError]
  ⟨hw, by decide, by decide,
    C9_counter_stays_within_0_76 fullWithError 2 75 [] [65] hw (by decide) (by decide)⟩

/-! ## `Mail.Send` -/

theorem runCommands_append (srv : Server) (xs ys : List Event) : ∀ tr : List Event,
    runCommands srv (xs ++ ys) tr = andThen (runCommands srv xs tr) (runCommands srv ys) := by
  induction xs with
  | nil => intro tr; simp [runCommands, andThen]
  | cons c cs ih =>
    intro tr
    rw [List.cons_append, runCommands, runCommands]
    cases h : srv.reply tr c with
    | none => simp only; exact ih _
    | some e => simp [andThen]

theorem step_eq_runCommands (srv : Server) (ev : Event) (tr : List Event) :
    step srv ev tr = runCommands srv [ev] tr := by
  rw [runCommands, step]
  cases h : srv.reply tr ev with
  | none => simp [runCommands, Status.ofError]
  | some e => simp [Status.ofError]

theorem rcpts_eq_runCommands (srv : Server) (as : List String) : ∀ tr : List Event,
    Send.rcpts srv as tr = runCommands srv (as.map Event.rcpt) tr := by
  induction as with
  | nil => intro tr; simp [Send.rcpts, runCommands]
  | cons a as ih =>
    intro tr
    rw [Send.rcpts, List.map_cons, runCommands, step]
    cases h : srv.reply tr (Event.rcpt a) with
    | none => simp only [andThen, Status.ofError]; exact ih _
    | some e => simp [andThen, Status.ofError]

/-- The envelope of `Mail.Send` issues the listed commands in order and stops
at the first failure. -/
theorem envelope_eq_runCommands (srv : Server) (cfg : Config) (message : List Byte)
    (tr : List Event) :
    Send.envelope srv cfg message tr = runCommands srv (commands cfg message) tr := by
  have e : commands cfg message = [Event.mail cfg.From] ++ (cfg.To.map Event.rcpt
      ++ (cfg.Cc.map Event.rcpt ++ (cfg.Bcc.map Event.rcpt ++ ([Event.data]
      ++ ([Event.writeTo message] ++ ([Event.closeData] ++ [Event.quit])))))) := by
    simp [commands]
  rw [e, Send.envelope]
  simp only [rcpts_eq_runCommands, step_eq_runCommands]
  rw [runCommands_append]; congr 1; funext t1
  rw [runCommands_append]; congr 1; funext t2
  rw [runCommands_append]; congr 1; funext t3
  rw [runCommands_append]; congr 1; funext t4
  rw [runCommands_append]; congr 1; funext t5
  rw [runCommands_append]; congr 1; funext t6
  rw [runCommands_append]

/-- What `runCommands` does: the commands issued are a leading part of the
list, all but the last of them succeeded, the run ends as the last command
issued did, and it stops short of the whole list only with an error. -/
theorem runCommands_spec (srv : Server) (cs : List Event) : ∀ tr : List Event,
    ∃ issued rest, (runCommands srv cs tr).2 = tr ++ issued
      ∧ issued ++ rest = cs
      ∧ (∀ pre c post, issued = pre ++ c :: post → post ≠ [] → srv.reply (tr ++ pre) c = none)
      ∧ (∀ pre c, issued = pre ++ [c] →
          (runCommands srv cs tr).1 = Status.ofError (srv.reply (tr ++ pre) c))
      ∧ (cs ≠ [] → issued ≠ [])
      ∧ (rest ≠ [] → ∃ e, (runCommands srv cs tr).1 = Status.failed e) := by
  induction cs with
  | nil =>
    intro tr
    refine ⟨[], [], by simp [runCommands], rfl, ?_, ?_, by simp, by simp⟩
    · intro pre c post h; simp at h
    · intro pre c h; simp at h
  | cons c cs ih =>
    intro tr
    rw [runCommands]
    cases h : srv.reply tr c with
    | some e =>
      refine ⟨[c], cs, rfl, rfl, ?_, ?_, by simp, fun _ => ⟨e, rfl⟩⟩
      · intro pre d post hsplit hpost
        cases pre with
        | nil => simp at hsplit; exact absurd hsplit.2 hpost
        | cons x pre1 => simp at hsplit
      · intro pre d hsplit
        cases pre with
        | nil =>
          simp only [List.nil_append, List.cons.injEq, and_true] at hsplit
          subst hsplit
          simp [h, Status.ofError]
        | cons x pre1 => simp at hsplit
    | none =>
      obtain ⟨issued, rest, h1, h2, h3, h4, h5, h6⟩ := ih (tr ++ [c])
      refine ⟨c :: issued, rest, ?_, by simp [h2], ?_, ?_, by simp, ?_⟩
      · simp only; rw [h1]; simp
      · intro pre d post hsplit hpost
        cases pre with
        | nil =>
          simp only [List.nil_append, List.cons.injEq] at hsplit
          obtain ⟨hd, _⟩ := hsplit
          subst hd
          simpa using h
        | cons x pre1 =>
          simp only [List.cons_append, List.cons.injEq] at hsplit
          obtain ⟨hx, hrest⟩ := hsplit
          subst hx
          have := h3 pre1 d post hrest hpost
          simpa using this
      · intro pre d hsplit
        cases pre with
        | nil =>
          simp only [List.nil_append, List.cons.injEq] at hsplit
          obtain ⟨hd, hnil⟩ := hsplit
          subst hd
          by_cases hcs0 : cs = []
          · subst hcs0
            simp [runCommands, h, Status.ofError]
          · exact absurd hnil (h5 hcs0)
        | cons x pre1 =>
          simp only [List.cons_append, List.cons.injEq] at hsplit
          obtain ⟨hx, hrest⟩ := hsplit
          subst hx
          have := h4 pre1 d hrest
          simpa using this
      · intro hrest
        exact h6 hrest

/-- The calls of lines 70-81: `STARTTLS` and `AUTH` at most; a panic happens
inside `c.Auth` only, and always when `c.Auth` is called with the nil
credential. -/
theorem handshake_events (srv : Server) (cfg : Config) (tr : List Event) :
    ∃ hs, (Send.handshake srv cfg tr).2 = tr ++ hs
      ∧ (∀ ev ∈ hs, ev = Event.startTLS ∨ ev = Event.auth cfg.Auth)
      ∧ ((Send.handshake srv cfg tr).1 = Status.panicked → Event.auth cfg.Auth ∈ hs)
      ∧ (cfg.Auth = none → Event.auth none ∈ hs →
          (Send.handshake srv cfg tr).1 = Status.panicked) := by
  unfold Send.handshake Send.auth
  by_cases h1 : srv.extension tr "STARTTLS" = true
  · rw [if_pos h1]
    cases h2 : srv.reply tr Event.startTLS with
    | some e =>
      exact ⟨[Event.startTLS], by simp [step, andThen, h2, Status.ofError], by simp,
        by simp [step, andThen, h2, Status.ofError], by simp⟩
    | none =>
      by_cases h3 : srv.extension (tr ++ [Event.startTLS]) "AUTH" = true
      · cases ha : cfg.Auth with
        | none =>
          exact ⟨[Event.startTLS, Event.auth none],
            by simp [step, andThen, h2, h3, Status.ofError], by simp, by simp,
            by simp [step, andThen, h2, h3, Status.ofError]⟩
        | some a =>
          exact ⟨[Event.startTLS, Event.auth (some a)],
            by simp [step, andThen, h2, h3, Status.ofError], by simp, by simp, by simp⟩
      · exact ⟨[Event.startTLS], by simp [step, andThen, h2, h3, Status.ofError], by simp,
          by simp [step, andThen, h2, h3, Status.ofError], by simp⟩
  · rw [if_neg h1]
    by_cases h3 : srv.extension tr "AUTH" = true
    · cases ha : cfg.Auth with
      | none =>
        exact ⟨[Event.auth none], by simp [andThen, h3], by simp, by simp,
          by simp [andThen, h3]⟩
      | some a =>
        exact ⟨[Event.auth (some a)], by simp [andThen, h3], by simp, by simp, by simp⟩
    · exact ⟨[], by simp [andThen, h3], by simp, by simp [andThen, h3], by simp⟩

/-- C7: in `Mail.Send`, after the message was sealed and `smtp.Dial`
succeeded, for every configuration and whatever the server replies: the calls
made are the dial, then `STARTTLS` and `AUTH` at most, then the commands
issued, then the deferred `c.Close()`, which therefore ends every run, the
panic of `c.Auth` on a nil credential included. When `STARTTLS` or `AUTH`
fails, or `c.Auth` panics (as it always does when it is called with the nil
credential), the run ends right there and no command is issued. Otherwise the
commands issued are a leading part of `MAIL`, `RCPT` for `To`, `Cc`, `Bcc` in
order, `DATA`, the message, the end of the data, `QUIT`; every command but the
last one issued succeeded, `Send` returns what the last one returned, and it
stops short of `QUIT` only with an error. -/
theorem C7_send_stops_at_first_failure (mp : Multipart) (srv : Server) (cfg : Config)
    (m m1 : Mail) (hseal : Mail.seal mp m = (none, m1))
    (hdial : srv.reply [] (Event.dial cfg.Addr) = none) :
    ∃ hs, (Send.handshake srv cfg [Event.dial cfg.Addr]).2 = [Event.dial cfg.Addr] ++ hs
      ∧ (∀ ev ∈ hs, ev = Event.startTLS ∨ ev = Event.auth cfg.Auth)
      ∧ ((Send.handshake srv cfg [Event.dial cfg.Addr]).1 = Status.panicked →
          Event.auth cfg.Auth ∈ hs)
      ∧ (cfg.Auth = none → Event.auth none ∈ hs →
          (Send.handshake srv cfg [Event.dial cfg.Addr]).1 = Status.panicked)
      ∧ ((Send.handshake srv cfg [Event.dial cfg.Addr]).1 ≠ Status.ok →
          Mail.Send mp srv cfg m
            = ((Send.handshake srv cfg [Event.dial cfg.Addr]).1,
               [Event.dial cfg.Addr] ++ hs ++ [Event.close]))
      ∧ ((Send.handshake srv cfg [Event.dial cfg.Addr]).1 = Status.ok →
          ∃ issued rest,
            (Mail.Send mp srv cfg m).2 = [Event.dial cfg.Addr] ++ hs ++ issued ++ [Event.close]
            ∧ issued ++ rest = commands cfg m1.buffer
            ∧ (∀ pre c post, issued = pre ++ c :: post → post ≠ [] →
                srv.reply ([Event.dial cfg.Addr] ++ hs ++ pre) c = none)
            ∧ (∃ pre c, issued = pre ++ [c]
                ∧ (Mail.Send mp srv cfg m).1
                  = Status.ofError (srv.reply ([Event.dial cfg.Addr] ++ hs ++ pre) c))
            ∧ (rest ≠ [] → ∃ e, (Mail.Send mp srv cfg m).1 = Status.failed e)) := by
  obtain ⟨hs, hhs, hev, hpanic, hnil⟩ := handshake_events srv cfg [Event.dial cfg.Addr]
  have hsend : Mail.Send mp srv cfg m
      = ((andThen (Send.handshake srv cfg [Event.dial cfg.Addr])
            (Send.envelope srv cfg m1.buffer)).1,
         (andThen (Send.handshake srv cfg [Event.dial cfg.Addr])
            (Send.envelope srv cfg m1.buffer)).2 ++ [Event.close]) := by
    rw [Mail.Send, hseal]
    simp [step, hdial, Status.ofError]
  refine ⟨hs, hhs, hev, hpanic, hnil, ?_, ?_⟩
  · intro hne
    rw [hsend]
    cases hh : Send.handshake srv cfg [Event.dial cfg.Addr] with
    | mk st tr =>
      rw [hh] at hne hhs
      simp only at hne hhs
      subst hhs
      cases st with
      | ok => exact absurd rfl hne
      | failed e => simp [andThen]
      | panicked => simp [andThen]
  · intro hok
    obtain ⟨issued, rest, h1, h2, h3, h4, h5, h6⟩ :=
      runCommands_spec srv (commands cfg m1.buffer) ([Event.dial cfg.Addr] ++ hs)
    have hsend2 : Mail.Send mp srv cfg m
        = ((runCommands srv (commands cfg m1.buffer) ([Event.dial cfg.Addr] ++ hs)).1,
           (runCommands srv (commands cfg m1.buffer) ([Event.dial cfg.Addr] ++ hs)).2
             ++ [Event.close]) := by
      rw [hsend]
      cases hh : Send.handshake srv cfg [Event.dial cfg.Addr] with
      | mk st tr =>
        rw [hh] at hok hhs
        simp only at hok hhs
        subst hok
        subst hhs
        simp only [andThen, envelope_eq_runCommands]
    have hne : issued ≠ [] := h5 (by simp [commands])
    obtain ⟨pre, c, hlast⟩ : ∃ pre c, issued = pre ++ [c] :=
      ⟨issued.dropLast, issued.getLast hne, (List.dropLast_append_getLast hne).symm⟩
    refine ⟨issued, rest, ?_, h2, h3, ⟨pre, c, hlast, ?_⟩, ?_⟩
    · rw [hsend2]; simp only; rw [h1]
    · rw [hsend2]; exact h4 pre c hlast
    · intro hrest; rw [hsend2]; exact h6 hrest

/-- Witness of C7: the server rejects the second `To` address. `Send` returns
that error after `MAIL`, `RCPT c`, `RCPT b`: no further `RCPT`, no `DATA`, and
the connection is closed. Next to it the two other kinds of run: with the nil
credential and a server that advertises `AUTH`, `c.Auth` panics and the
connection is closed with no command issued; with a credential the same server
gets every command up to `QUIT`. -/
theorem C7_send_stops_at_first_failure_witness :
    Mail.seal goMultipart draft = (none, (Mail.seal goMultipart draft).2)
    ∧ rejectingB.reply [] (Event.dial threeTo.Addr) = none
    ∧ Mail.Send goMultipart rejectingB threeTo draft
      = (Status.failed "550 no such user",
         [Event.dial "mx.x.com:25", Event.mail "a@x.com", Event.rcpt "c@x.com",
          Event.rcpt "b@x.com", Event.close])
    ∧ Mail.Send goMultipart advertisingAuth threeTo draft
      = (Status.panicked, [Event.dial "mx.x.com:25", Event.auth none, Event.close])
    ∧ Mail.Send goMultipart advertisingAuth threeToPlain draft
      = (Status.ok,
         [Event.dial "mx.x.com:25", Event.auth (some "PLAIN"), Event.mail "a@x.com",
          Event.rcpt "c@x.com", Event.rcpt "b@x.com", Event.rcpt "d@x.com",
          Event.rcpt "e@x.com", Event.data,
          Event.writeTo (bytes "MIME-Version: 1.0\r\n\r\n\r\n--XYZ--\r\n"),
          Event.closeData, Event.quit, Event.close])
    ∧ ∃ hs, (Send.handshake rejectingB threeTo [Event.dial threeTo.Addr]).2
        = [Event.dial threeTo.Addr] ++ hs
      ∧ (∀ ev ∈ hs, ev = Event.startTLS ∨ ev = Event.auth threeTo.Auth)
      ∧ ((Send.handshake rejectingB threeTo [Event.dial threeTo.Addr]).1 = Status.panicked →
          Event.auth threeTo.Auth ∈ hs)
      ∧ (threeTo.Auth = none → Event.auth none ∈ hs →
          (Send.handshake rejectingB threeTo [Event.dial threeTo.Addr]).1 = Status.panicked)
      ∧ ((Send.handshake rejectingB threeTo [Event.dial threeTo.Addr]).1 ≠ Status.ok →
          Mail.Send goMultipart rejectingB threeTo draft
            = ((Send.handshake rejectingB threeTo [Event.dial threeTo.Addr]).1,
               [Event.dial threeTo.Addr] ++ hs ++ [Event.close]))
      ∧ ((Send.handshake rejectingB threeTo [Event.dial threeTo.Addr]).1 = Status.ok →
          ∃ issued rest,
            (Mail.Send goMultipart rejectingB threeTo draft).2
              = [Event.dial threeTo.Addr] ++ hs ++ issued ++ [Event.close]
            ∧ issued ++ rest = commands threeTo (Mail.seal goMultipart draft).2.buffer
            ∧ (∀ pre c post, issued = pre ++ c :: post → post ≠ [] →
                rejectingB.reply ([Event.dial threeTo.Addr] ++ hs ++ pre) c = none)
            ∧ (∃ pre c, issued = pre ++ [c]
                ∧ (Mail.Send goMultipart rejectingB threeTo draft).1
                  = Status.ofError
                      (rejectingB.reply ([Event.dial threeTo.Addr] ++ hs ++ pre) c))
            ∧ (rest ≠ [] →
                ∃ e, (Mail.Send goMultipart rejectingB threeTo draft).1 = Status.failed e)) :=
  ⟨rfl, rfl, by decide, by decide, by decide,
    C7_send_stops_at_first_failure goMultipart rejectingB threeTo draft _ rfl rfl⟩

/-! ## `Mail.Part` -/

/-- C6: `Mail.Part` reports the first error and always finalizes. When the
creation of the part fails, that error is returned and neither the body
function nor `Close` is called. Otherwise the body function and then `Close`
are called, each exactly once, whether or not the body function failed; `Part`
returns the error of the body function when it failed (whatever `Close`
returns), and otherwise what `Close` returns, which is `nil` only when both
succeeded. Recording the calls does not change the result. -/
theorem C6_part_reports_first_error {σ : Type} (ops : PartOps σ) (s : σ) :
    (∀ e s1, ops.createPart s = some (some e, s1) →
      Part ops.logged (s, []) = some (some e, (s1, [PartCall.createPart])))
    ∧ (∀ s1 e s2 r s3, ops.createPart s = some (none, s1) → ops.body s1 = some (some e, s2) →
        ops.close s2 = some (r, s3) →
        Part ops.logged (s, [])
          = some (some e, (s3, [PartCall.createPart, PartCall.body, PartCall.close])))
    ∧ (∀ s1 s2 r s3, ops.createPart s = some (none, s1) → ops.body s1 = some (none, s2) →
        ops.close s2 = some (r, s3) →
        Part ops.logged (s, [])
          = some (r, (s3, [PartCall.createPart, PartCall.body, PartCall.close])))
    ∧ Part ops s = (Part ops.logged (s, [])).map (fun x => (x.1, x.2.1)) := by
  refine ⟨?_, ?_, ?_, ?_⟩
  · intro e s1 h
    simp [Part, PartOps.logged, h]
  · intro s1 e s2 r s3 h1 h2 h3
    simp [Part, PartOps.logged, h1, h2, h3]
  · intro s1 s2 r s3 h1 h2 h3
    simp [Part, PartOps.logged, h1, h2, h3]
  · simp only [Part, PartOps.logged]
    cases h1 : ops.createPart s with
    | none => simp
    | some r1 =>
      obtain ⟨e1, s1⟩ := r1
      cases e1 with
      | some e => simp
      | none =>
        simp only [Option.map_some']
        cases h2 : ops.body s1 with
        | none => simp
        | some r2 =>
          obtain ⟨e2, s2⟩ := r2
          cases e2 with
          | none =>
            simp only [Option.map_some']
            cases h3 : ops.close s2 with
            | none => simp
            | some r3 => simp
          | some e =>
            simp only [Option.map_some']
            cases h3 : ops.close s2 with
            | none => simp
            | some r3 => simp

/-! ## The base64 encoder on the line wrapper -/

theorem sextet_spec : ∀ v : Fin 64, decodeChar (sextet v.val) = some v.val
    ∧ sextet v.val ≠ 61 ∧ sextet v.val ≠ 13 ∧ sextet v.val ≠ 10 := by
  decide

theorem sextet_mod (n : Nat) : sextet (n % 64) = sextet n := by
  simp [sextet]

theorem decodeChar_sextet (n : Nat) : decodeChar (sextet n) = some (n % 64) := by
  have h := (sextet_spec ⟨n % 64, Nat.mod_lt _ (by decide)⟩).1
  simpa [sextet_mod] using h

theorem sextet_ne_pad (n : Nat) : sextet n ≠ 61 := by
  have h := (sextet_spec ⟨n % 64, Nat.mod_lt _ (by decide)⟩).2.1
  simpa [sextet_mod] using h

theorem sextet_ne_cr (n : Nat) : sextet n ≠ 13 := by
  have h := (sextet_spec ⟨n % 64, Nat.mod_lt _ (by decide)⟩).2.2.1
  simpa [sextet_mod] using h

theorem sextet_ne_lf (n : Nat) : sextet n ≠ 10 := by
  have h := (sextet_spec ⟨n % 64, Nat.mod_lt _ (by decide)⟩).2.2.2
  simpa [sextet_mod] using h

theorem byteOf_eq (a : Byte) (n : Nat) (h : n % 256 = a.val) : byteOf n = a := by
  apply Fin.ext
  simp [byteOf, h]

/-- Decoding undoes the padded encoding. -/
theorem stdDecodeGroups_stdEncode : ∀ b : List Byte, stdDecodeGroups (stdEncode b) = some b
  | [] => by simp [stdEncode, encodeGroup, stdDecodeGroups]
  | [a] => by
    have ha := a.isLt
    simp only [stdEncode, encodeGroup, stdDecodeGroups, decodeChar_sextet, if_true, ne_eq,
      not_true_eq_false, if_false]
    simp only [Option.some.injEq, List.cons.injEq, and_true]
    apply byteOf_eq
    omega
  | [a, b] => by
    have ha := a.isLt
    have hb := b.isLt
    simp only [stdEncode, encodeGroup, stdDecodeGroups, decodeChar_sextet, if_true, ne_eq,
      not_true_eq_false, if_false, sextet_ne_pad]
    simp only [Option.some.injEq, List.cons.injEq, and_true]
    constructor
    · apply byteOf_eq; omega
    · apply byteOf_eq; omega
  | a :: b :: c :: rest => by
    have ha := a.isLt
    have hb := b.isLt
    have hc := c.isLt
    have ih := stdDecodeGroups_stdEncode rest
    simp only [stdEncode, encodeGroup, List.cons_append, List.nil_append, stdDecodeGroups,
      decodeChar_sextet, sextet_ne_pad, if_false, List.append_eq, ih]
    simp only [Option.some.injEq, List.cons.injEq, and_true]
    refine ⟨?_, ?_, ?_⟩
    · apply byteOf_eq; omega
    · apply byteOf_eq; omega
    · apply byteOf_eq; omega

/-- The encoded text holds neither CR nor LF. -/
theorem stdEncode_no_crlf : ∀ (b : List Byte) (x : Byte), x ∈ stdEncode b → x ≠ 13 ∧ x ≠ 10
  | [], x, h => by simp [stdEncode, encodeGroup] at h
  | [a], x, h => by
    simp only [stdEncode, encodeGroup, List.mem_cons, List.mem_singleton, List.not_mem_nil,
      or_false] at h
    rcases h with h | h | h | h <;> subst h <;>
      first | exact ⟨sextet_ne_cr _, sextet_ne_lf _⟩ | decide
  | [a, b], x, h => by
    simp only [stdEncode, encodeGroup, List.mem_cons, List.mem_singleton, List.not_mem_nil,
      or_false] at h
    rcases h with h | h | h | h <;> subst h <;>
      first | exact ⟨sextet_ne_cr _, sextet_ne_lf _⟩ | decide
  | a :: b :: c :: rest, x, h => by
    simp only [stdEncode, encodeGroup, List.cons_append, List.nil_append, List.mem_cons,
      List.append_eq] at h
    rcases h with h | h | h | h | h
    · subst h; exact ⟨sextet_ne_cr _, sextet_ne_lf _⟩
    · subst h; exact ⟨sextet_ne_cr _, sextet_ne_lf _⟩
    · subst h; exact ⟨sextet_ne_cr _, sextet_ne_lf _⟩
    · subst h; exact ⟨sextet_ne_cr _, sextet_ne_lf _⟩
    · exact stdEncode_no_crlf rest x h

theorem filter_wrapFrom (s : List Byte) : ∀ c : Nat,
    (wrapFrom c s).filter (fun x => x ≠ 13 ∧ x ≠ 10) = s.filter (fun x => x ≠ 13 ∧ x ≠ 10) := by
  induction s with
  | nil => intro c; simp [wrapFrom]
  | cons b s ih =>
    intro c
    rw [wrapFrom]
    by_cases h1 : c + 1 = 76
    · rw [if_pos h1]
      simp only [List.filter_cons, ih 0]
      simp
    · rw [if_neg h1]
      simp only [List.filter_cons, ih (c + 1)]

/-- Decoding, with CR and LF ignored, undoes encoding followed by wrapping. -/
theorem stdDecode_insertBreaks_stdEncode (b : List Byte) :
    stdDecode (insertBreaks (stdEncode b)) = some b := by
  rw [stdDecode, insertBreaks, filter_wrapFrom]
  have h : (stdEncode b).filter (fun x => x ≠ 13 ∧ x ≠ 10) = stdEncode b := by
    rw [List.filter_eq_self]
    intro x hx
    have := stdEncode_no_crlf b x hx
    simp [this.1, this.2]
  rw [h, stdDecodeGroups_stdEncode]

/-- The encoding of full groups followed by more bytes is the concatenation of
the encodings. -/
theorem stdEncode_append : ∀ (xs ys : List Byte), xs.length % 3 = 0 →
    stdEncode (xs ++ ys) = stdEncode xs ++ stdEncode ys
  | [], ys, _ => by simp [stdEncode, encodeGroup]
  | [a], ys, h => by simp at h
  | [a, b], ys, h => by simp at h
  | a :: b :: c :: rest, ys, h => by
    have h1 : rest.length % 3 = 0 := by
      simp only [List.length_cons] at h; omega
    have ih := stdEncode_append rest ys h1
    simp only [List.cons_append, stdEncode, List.append_eq, ih, List.append_assoc]

/-- One write through the line wrapper over an accepting stream. -/
theorem sink_accepting (s : Int × List Call) (enc q : List Byte) (h : SinkInv s enc) :
    ∃ s1, wrapperSink accepting s q = some (none, s1) ∧ SinkInv s1 (enc ++ q) := by
  obtain ⟨i, log⟩ := s
  obtain ⟨h1, h2⟩ := h
  simp only at h1 h2
  obtain ⟨calls, g1, g2, _, _⟩ := loop_accepting (q.length + 1) (enc.length % 76) log q 0
    (Nat.mod_lt _ (by decide)) (by omega)
  refine ⟨((((enc.length % 76 + q.length) % 76 : Nat) : Int), log ++ calls), ?_, ?_, ?_⟩
  · simp only [wrapperSink, Write, h1, g1]
  · simp only [List.length_append]
    have e : (enc.length % 76 + q.length) % 76 = (enc.length + q.length) % 76 := by omega
    rw [e]
  · simp only
    rw [delivered_append, h2, g2, insertBreaks, insertBreaks, wrapFrom_append _ _ _ (by decide)]
    simp

theorem sinkInv_nil : SinkInv (0, []) [] := by
  simp [SinkInv, delivered, insertBreaks, wrapFrom]

/-- The interior of the encoder's `Write` over the line wrapper and an
accepting stream. -/
theorem encoder_loop_accepting (fuel : Nat) :
    ∀ (e : Encoder (Int × List Call)) (p : List Byte) (n : Int) (done : List Byte),
    p.length < fuel → e.err = none → done.length % 3 = 0 → SinkInv e.sink (stdEncode done) →
    ∃ e1, Encoder.loop (wrapperSink accepting) fuel e p n = some (n + (p.length : Int), none, e1)
      ∧ EncInv e1 (done ++ p) := by
  induction fuel with
  | zero => intro e p n done h; omega
  | succ fuel ih =>
    intro e p n done hp herr hdone hsink
    rw [Encoder.loop]
    by_cases h3 : 3 ≤ p.length
    · rw [if_pos h3]
      simp only
      obtain ⟨nn, hnn⟩ : ∃ nn : Nat,
          (if 1024 / 4 * 3 > p.length then p.length - p.length % 3 else 1024 / 4 * 3) = nn :=
        ⟨_, rfl⟩
      rw [hnn]
      have hnn3 : nn % 3 = 0 := by
        rw [← hnn]; split <;> omega
      have hnnp : nn ≤ p.length := by
        rw [← hnn]; split <;> omega
      have hnn0 : 3 ≤ nn := by
        rw [← hnn]; split <;> omega
      have htake : (p.take nn).length = nn := by
        rw [List.length_take]; omega
      obtain ⟨s1, hs1, hs2⟩ := sink_accepting e.sink (stdEncode done) (stdEncode (p.take nn)) hsink
      rw [hs1]
      simp only [ne_eq, not_true_eq_false, if_false]
      have hdone1 : (done ++ p.take nn).length % 3 = 0 := by
        rw [List.length_append, htake]; omega
      rw [← stdEncode_append _ _ hdone] at hs2
      obtain ⟨e1, g1, g2⟩ := ih (Encoder.mk none e.buf s1) (p.drop nn) (n + (nn : Int))
        (done ++ p.take nn) (by rw [List.length_drop]; omega) rfl hdone1 hs2
      refine ⟨e1, ?_, ?_⟩
      · rw [g1, List.length_drop]
        have e2 : n + (nn : Int) + ((p.length - nn : Nat) : Int) = n + (p.length : Int) := by
          omega
        rw [e2]
      · rw [List.append_assoc, List.take_append_drop] at g2
        exact g2
    · rw [if_neg h3]
      refine ⟨Encoder.mk e.err p e.sink, rfl, herr, by simp only; omega, done, rfl, hdone, hsink⟩

/-- One `Write` on the encoder over the line wrapper and an accepting stream:
it takes the whole slice and returns `nil`. -/
theorem encoder_write_accepting (e : Encoder (Int × List Call)) (input p : List Byte)
    (h : EncInv e input) :
    ∃ e1, Encoder.Write (wrapperSink accepting) e p = some ((p.length : Int), none, e1)
      ∧ EncInv e1 (input ++ p) := by
  obtain ⟨herr, hbuf, done, hin, hdone, hsink⟩ := h
  rw [Encoder.Write]
  have hne : ¬ (e.err ≠ none) := by simp [herr]
  rw [if_neg hne]
  by_cases hb : 0 < e.buf.length
  · rw [if_pos hb]
    simp only
    obtain ⟨i, hi⟩ : ∃ i : Nat, min p.length (3 - e.buf.length) = i := ⟨_, rfl⟩
    rw [hi]
    have htake : (p.take i).length = i := by
      rw [List.length_take]; omega
    by_cases hlt : (e.buf ++ p.take i).length < 3
    · rw [if_pos hlt]
      have hip : i = p.length := by
        rw [List.length_append, htake] at hlt; omega
      have hpi : p.take i = p := by
        rw [hip]; exact List.take_length p
      refine ⟨Encoder.mk e.err (e.buf ++ p.take i) e.sink, by rw [hip], herr, hlt, done, ?_,
        hdone, hsink⟩
      simp only [hpi, hin, List.append_assoc]
    · rw [if_neg hlt]
      have hlen3 : (e.buf ++ p.take i).length = 3 := by
        rw [List.length_append, htake] at hlt ⊢; omega
      obtain ⟨s1, hs1, hs2⟩ := sink_accepting e.sink (stdEncode done)
        (stdEncode (e.buf ++ p.take i)) hsink
      rw [hs1]
      simp only [ne_eq, not_true_eq_false, if_false]
      rw [← stdEncode_append _ _ hdone] at hs2
      have hdone1 : (done ++ (e.buf ++ p.take i)).length % 3 = 0 := by
        rw [List.length_append, hlen3]; omega
      obtain ⟨e1, g1, g2⟩ := encoder_loop_accepting ((p.drop i).length + 1)
        (Encoder.mk none [] s1) (p.drop i) (i : Int) (done ++ (e.buf ++ p.take i))
        (by omega) rfl hdone1 hs2
      refine ⟨e1, ?_, ?_⟩
      · rw [g1, List.length_drop]
        have hile : i ≤ p.length := by omega
        have e2 : (i : Int) + ((p.length - i : Nat) : Int) = (p.length : Int) := by omega
        rw [e2]
      · have e3 : done ++ (e.buf ++ p.take i) ++ p.drop i = input ++ p := by
          rw [hin]
          simp only [List.append_assoc, List.take_append_drop]
        rw [e3] at g2
        exact g2
  · rw [if_neg hb]
    have hnil : e.buf = [] := by
      cases hbuf2 : e.buf with
      | nil => rfl
      | cons x xs => rw [hbuf2] at hb; simp at hb
    obtain ⟨e1, g1, g2⟩ := encoder_loop_accepting (p.length + 1) e p 0 done (by omega) herr
      hdone hsink
    refine ⟨e1, ?_, ?_⟩
    · rw [g1]; simp
    · rw [hin, hnil, List.append_nil]
      exact g2

/-- The body function on the encoder over an accepting stream: every write
succeeds, so it returns its own error, if any. -/
theorem body_run_accepting (pieces : List (List Byte)) (fail : Option Err) :
    ∀ (e : Encoder (Int × List Call)) (input : List Byte), EncInv e input →
    ∃ e1, Body.run (wrapperSink accepting) pieces fail e = some (fail, e1)
      ∧ EncInv e1 (input ++ pieces.flatten) := by
  induction pieces with
  | nil => intro e input h; exact ⟨e, rfl, by simpa using h⟩
  | cons p ps ih =>
    intro e input h
    obtain ⟨e1, g1, g2⟩ := encoder_write_accepting e input p h
    obtain ⟨e2, k1, k2⟩ := ih e1 (input ++ p) g2
    refine ⟨e2, ?_, ?_⟩
    · rw [Body.run, g1]
      exact k1
    · simpa using k2

/-- The encoder's `Close` over an accepting stream: it returns `nil`, and the
stream has then received the wrapped encoding of all the bytes written. -/
theorem encoder_close_accepting (e : Encoder (Int × List Call)) (input : List Byte)
    (h : EncInv e input) :
    ∃ e1, Encoder.Close (wrapperSink accepting) e = some (none, e1)
      ∧ delivered e1.sink.2 = insertBreaks (stdEncode input) := by
  obtain ⟨herr, hbuf, done, hin, hdone, hsink⟩ := h
  rw [Encoder.Close]
  by_cases hb : 0 < e.buf.length
  · rw [if_pos ⟨herr, hb⟩]
    obtain ⟨s1, hs1, hs2⟩ := sink_accepting e.sink (stdEncode done) (stdEncode e.buf) hsink
    rw [hs1]
    refine ⟨Encoder.mk none [] s1, rfl, ?_⟩
    rw [← stdEncode_append _ _ hdone, ← hin] at hs2
    exact hs2.2
  · have hnot : ¬ (e.err = none ∧ 0 < e.buf.length) := fun hh => hb hh.2
    rw [if_neg hnot]
    have hnil : e.buf = [] := by
      cases hbuf2 : e.buf with
      | nil => rfl
      | cons x xs => rw [hbuf2] at hb; simp at hb
    refine ⟨e, by rw [herr], ?_⟩
    rw [hin, hnil, List.append_nil]
    exact hsink.2

/-- The method `Mail.Part` over Go's multipart writer: the part is created,
the body function and `Close` run, and the buffer then holds what `CreatePart`
wrote followed by the wrapped encoding of the bytes of the body. `Part` returns
the error of the body function, if it has one. -/
theorem mail_part_buffer (header : Header) (f : Body) (m : Mail) :
    Mail.Part header f m
      = some (f.fail, Mail.mk
          ((goMultipart.createPart (header.set "Content-Transfer-Encoding" "base64") m).2.buffer
            ++ insertBreaks (stdEncode f.pieces.flatten))
          m.boundary true) := by
  have hinv : EncInv (Encoder.mk none [] ((0 : Int), ([] : List Call))) [] :=
    ⟨rfl, by simp, [], rfl, rfl, by simpa [stdEncode, encodeGroup] using sinkInv_nil⟩
  obtain ⟨e1, g1, g2⟩ := body_run_accepting f.pieces f.fail _ [] hinv
  rw [List.nil_append] at g2
  obtain ⟨e2, k1, k2⟩ := encoder_close_accepting e1 f.pieces.flatten g2
  simp only [Mail.Part, Part, partOps, goMultipart, g1, k1, Option.map_some', PartState.body]
  cases hf : f.fail with
  | none => simp [k1, k2]
  | some err => simp [k1, k2]

/-- C4: for every byte sequence, written by the body function in slices of
any lengths, `Mail.Part` returns `nil` and appends to the buffer, after what
`CreatePart` wrote, a part body that is the padded base64 text of the bytes
with CR LF after every 76th character; base64 decoding of that body with CR
and LF ignored gives exactly the bytes. The text `hello` gives the part body
`aGVsbG8=`. -/
theorem C4_part_body_round_trip (header : Header) (pieces : List (List Byte)) (m : Mail) :
    (∃ m1 body, Mail.Part header (Body.mk pieces none) m = some (none, m1)
      ∧ m1.buffer
          = (goMultipart.createPart (header.set "Content-Transfer-Encoding" "base64") m).2.buffer
            ++ body
      ∧ body = insertBreaks (stdEncode pieces.flatten)
      ∧ stdDecode body = some pieces.flatten)
    ∧ (∃ m2, Mail.Text (bytes "hello") m = some (none, m2)
      ∧ m2.buffer
          = (goMultipart.createPart ((Header.set [] "Content-Type"
              "text/plain; charset=utf-8").set "Content-Transfer-Encoding" "base64") m).2.buffer
            ++ bytes "aGVsbG8=")
    ∧ stdEncode (bytes "hello") = bytes "aGVsbG8="
    ∧ stdDecode (bytes "aGVsbG8=") = some (bytes "hello") := by
  refine ⟨?_, ?_, by decide, by decide⟩
  · refine ⟨_, insertBreaks (stdEncode pieces.flatten), mail_part_buffer header _ m, rfl, rfl,
      stdDecode_insertBreaks_stdEncode _⟩
  · have e : insertBreaks (stdEncode (Body.mk [bytes "hello"] none).pieces.flatten)
        = bytes "aGVsbG8=" := by decide
    have h := mail_part_buffer (Header.set [] "Content-Type" "text/plain; charset=utf-8")
      (Body.mk [bytes "hello"] none) m
    rw [e] at h
    exact ⟨_, h, rfl⟩

/-- C5, as stated, fails: the sealed `draft` is sealed again, and a text part
is added to it; both calls return `nil`, and the buffer grows by a second
closing delimiter, respectively by a part. -/
theorem C5_sealed_mail_accepts_more_counterexample :
    Mail.seal goMultipart draft
      = (none, Mail.mk (bytes "MIME-Version: 1.0\r\n\r\n\r\n--XYZ--\r\n") "XYZ" false)
    ∧ Mail.seal goMultipart (Mail.seal goMultipart draft).2
      = (none, Mail.mk (bytes "MIME-Version: 1.0\r\n\r\n\r\n--XYZ--\r\n\r\n--XYZ--\r\n")
          "XYZ" false)
    ∧ Mail.Text (bytes "hello") (Mail.seal goMultipart draft).2
      = some (none, Mail.mk (bytes ("MIME-Version: 1.0\r\n\r\n\r\n--XYZ--\r\n--XYZ\r\n"
          ++ "Content-Transfer-Encoding: base64\r\nContent-Type: text/plain; charset=utf-8\r\n"
          ++ "\r\naGVsbG8=")) "XYZ" true) := by
  set_option maxRecDepth 100000 in decide

/-- C5, amended: a `Mail` keeps no record of having been sealed. On a sealed
`Mail`, sealing again returns `nil` and appends a second closing delimiter to
the buffer, and `Part`, `Text`, `HTML` and `AttachReader` create the part as on
any other `Mail`: they append the delimiter, the header and the encoded body to
the buffer and return `nil`, unless the body function itself fails. -/
theorem C5_mail_keeps_no_sealed_state (m : Mail) (header : Header) (f : Body) (s : List Byte)
    (name : String) :
    Mail.seal goMultipart (Mail.seal goMultipart m).2
      = (none, Mail.mk ((Mail.seal goMultipart m).2.buffer
          ++ (crlf ++ bytes "--" ++ bytes m.boundary ++ bytes "--" ++ crlf)) m.boundary false)
    ∧ Mail.Part header f (Mail.seal goMultipart m).2
      = some (f.fail, Mail.mk ((Mail.seal goMultipart m).2.buffer
          ++ (bytes "--" ++ bytes m.boundary ++ crlf
            ++ headerLines (header.set "Content-Transfer-Encoding" "base64") ++ crlf)
          ++ insertBreaks (stdEncode f.pieces.flatten)) m.boundary true)
    ∧ (∃ m1, Mail.Text s (Mail.seal goMultipart m).2 = some (none, m1)
        ∧ (Mail.seal goMultipart m).2.buffer.length < m1.buffer.length)
    ∧ (∃ m1, Mail.HTML s (Mail.seal goMultipart m).2 = some (none, m1)
        ∧ (Mail.seal goMultipart m).2.buffer.length < m1.buffer.length)
    ∧ (∃ m1, Mail.AttachReader name f (Mail.seal goMultipart m).2 = some (f.fail, m1)
        ∧ (Mail.seal goMultipart m).2.buffer.length < m1.buffer.length) := by
  refine ⟨rfl, ?_, ?_, ?_, ?_⟩
  · rw [mail_part_buffer]
    simp [Mail.seal, goMultipart]
  · refine ⟨_, mail_part_buffer _ _ _, ?_⟩
    simp [Mail.seal, goMultipart, bytes, crlf]
  · refine ⟨_, mail_part_buffer _ _ _, ?_⟩
    simp [Mail.seal, goMultipart, bytes, crlf]
  · refine ⟨_, mail_part_buffer _ _ _, ?_⟩
    simp [Mail.seal, goMultipart, bytes, crlf]

end GoMail
